import Mathlib

/-!
Verification of the collapsible tree engine (arena-based hierarchy, navigation,
collapse/focus controller, renderer, and the LSP symbol adapter).

The development shallowly embeds two parallel Rust engine variants:

* the single-column trait-based engine (`TreeModel`/`TreeItem`/`TreeView` in
  `helix-term/src/ui/tree/mod.rs`), instantiated at its only implementation,
  the LSP symbol model (`helix-term/src/ui/lsp_tree.rs`); and
* the column-generic engine (`TreeModel` in `helix-tui/src/widgets/tree.rs`),
  whose fields are prefixed `w_` here to keep the two sets of names apart.

Machine indices (`Index`/`RowRef`, plain `usize` newtypes in the source) are
modelled as `Nat`.  Rust's panicking vector indexing is modelled by `List.getD`
with the canonical default; the theorems' hypotheses keep every access that the
source performs in bounds, except where a claim is precisely about an
out-of-bounds access, in which case the function is modelled as returning
`Option` with `none` for the panic.  Functions whose Rust recursion is not
structurally terminating (`next_uncle`, `prev_uncle`, the `depth` loop, the
renderer walk) take an explicit fuel argument; `none` on fuel exhaustion models
divergence, and canonical-fuel wrappers are provided together with adequacy
lemmas under well-formedness.
-/

mutual

/-- The nested symbol payload handed to the adapter: `lsp::DocumentSymbol`
restricted to the fields the tree engine reads (`name`, and the recursive
`children` list). -/
inductive DocSym : Type where
  | mk (name : String) (children : DocSymList)

/-- A sibling list of payload nodes (`Vec<DocumentSymbol>`). -/
inductive DocSymList : Type where
  | nil : DocSymList
  | cons (s : DocSym) (rest : DocSymList) : DocSymList

end

mutual

/-- Number of nodes of a payload subtree (1 for the node itself plus all
descendants). -/
def symSize : DocSym → Nat
  | .mk _ cs => 1 + symSizeList cs

/-- Total number of nodes in the subtrees of a sibling list. -/
def symSizeList : DocSymList → Nat
  | .nil => 0
  | .cons s rest => symSize s + symSizeList rest

end

/-- Number of top-level entries of a sibling list. -/
def symLen : DocSymList → Nat
  | .nil => 0
  | .cons _ rest => 1 + symLen rest

/-- The name of a payload node. -/
def DocSym.name : DocSym → String
  | .mk n _ => n

/-- The child list of a payload node. -/
def DocSym.children : DocSym → DocSymList
  | .mk _ cs => cs

/-- Arena node of the trait-based engine: `Item` from `lsp_tree.rs`.  The
`item: DocumentSymbol` payload is reduced to the one field the engine reads,
its `name` (the `render()` output). -/
structure Item where
  name : String
  children : List Nat
  ix : Nat
  child_ix : Nat
  parent : Option Nat
  deriving DecidableEq

instance : Inhabited Item := ⟨⟨"", [], 0, 0, none⟩⟩

/-- The arena of the trait-based engine: `LspTreeModel` from `lsp_tree.rs`
(an ordered root list plus the flat node store). -/
structure LspTreeModel where
  roots : List Nat
  lsp_items : List Item
  deriving DecidableEq

/-- Size of the node store (`row_count` in the source). -/
def LspTreeModel.size (m : LspTreeModel) : Nat := m.lsp_items.length

/-- `TreeModel::get_item` / `lsp_items[*ix]`: out-of-bounds access (a panic in
Rust) yields the default item; every use below is guarded in bounds. -/
def LspTreeModel.get_item (m : LspTreeModel) (ix : Nat) : Item :=
  m.lsp_items.getD ix default

/-- `TreeModel::parent` as implemented by `LspTreeModel`. -/
def LspTreeModel.parentOf (m : LspTreeModel) (ix : Nat) : Option Nat :=
  (m.get_item ix).parent

/-- `TreeModel::get_first`: the first root when the root list is non-empty. -/
def LspTreeModel.get_first (m : LspTreeModel) : Option Nat :=
  if m.roots.length > 0 then some (m.roots.getD 0 0) else none

/-- `TreeModel::next_sibling` (trait default, `tree/mod.rs` lines 75-95). -/
def LspTreeModel.next_sibling (m : LspTreeModel) (ix : Nat) : Option Nat :=
  let item := m.get_item ix
  match item.parent with
  | some parent =>
    let pItem := m.get_item parent
    let child_index := item.child_ix
    if pItem.children.length > child_index + 1 then
      some (pItem.children.getD (child_index + 1) 0)
    else none
  | none =>
    let child_index := item.child_ix
    if m.roots.length > child_index + 1 then
      some (m.roots.getD (child_index + 1) 0)
    else none

/-- `TreeModel::prev_sibling` (trait default, `tree/mod.rs` lines 97-117). -/
def LspTreeModel.prev_sibling (m : LspTreeModel) (ix : Nat) : Option Nat :=
  let item := m.get_item ix
  match item.parent with
  | some parent =>
    let pItem := m.get_item parent
    let child_index := item.child_ix
    if child_index > 0 then
      some (pItem.children.getD (child_index - 1) 0)
    else none
  | none =>
    let child_index := item.child_ix
    if child_index > 0 then
      some (m.roots.getD (child_index - 1) 0)
    else none

/-- `TreeModel::next_uncle` (trait default, `tree/mod.rs` lines 119-147), with
fuel for the `self.next_uncle(parent.index())` recursion; `none` on fuel
exhaustion models divergence (which cannot occur under well-formedness). -/
def LspTreeModel.next_uncleF (m : LspTreeModel) : Nat → Nat → Option Nat
  | 0, _ => none
  | fuel + 1, ix =>
    let item := m.get_item ix
    match item.parent with
    | some parent =>
      let pItem := m.get_item parent
      let child_index := pItem.child_ix
      match pItem.parent with
      | some grandparent =>
        let gpItem := m.get_item grandparent
        if gpItem.children.length > child_index + 1 then
          some (gpItem.children.getD (child_index + 1) 0)
        else m.next_uncleF fuel pItem.ix
      | none =>
        if m.roots.length > child_index + 1 then
          some (m.roots.getD (child_index + 1) 0)
        else none
    | none => none

/-- `next_uncle` at canonical fuel (`ix + 1` bounds the ancestor chain length
on any parent-decreasing arena). -/
def LspTreeModel.next_uncle (m : LspTreeModel) (ix : Nat) : Option Nat :=
  m.next_uncleF (ix + 1) ix

/-- `TreeModel::prev_uncle` (trait default, `tree/mod.rs` lines 149-177),
fuelled like `next_uncleF`. -/
def LspTreeModel.prev_uncleF (m : LspTreeModel) : Nat → Nat → Option Nat
  | 0, _ => none
  | fuel + 1, ix =>
    let item := m.get_item ix
    match item.parent with
    | some parent =>
      let pItem := m.get_item parent
      let child_index := pItem.child_ix
      match pItem.parent with
      | some grandparent =>
        let gpItem := m.get_item grandparent
        if child_index > 0 then
          some (gpItem.children.getD (child_index - 1) 0)
        else m.prev_uncleF fuel pItem.ix
      | none =>
        if child_index > 0 then
          some (m.roots.getD (child_index - 1) 0)
        else none
    | none => none

/-- `prev_uncle` at canonical fuel. -/
def LspTreeModel.prev_uncle (m : LspTreeModel) (ix : Nat) : Option Nat :=
  m.prev_uncleF (ix + 1) ix

/-- `TreeModel::depth` (trait default, `tree/mod.rs` lines 63-73).  The source
loop is `while let Some(parent) = self.parent(&ix) { depth += 1; iter = parent }`:
the guard re-reads `ix`, which the loop never changes, while the updated
variable `iter` is never consulted.  Each fuel step is one loop iteration;
`none` means the loop has not exited within the given number of iterations. -/
def LspTreeModel.depthF (m : LspTreeModel) (ix : Nat) : Nat → Nat → Nat → Option Nat
  | 0, _, _ => none
  | fuel + 1, d, _iter =>
    match m.parentOf ix with
    | some parent => m.depthF ix fuel (d + 1) parent
    | none => some d

/-- The view state of the trait-based engine (`TreeView`), instantiated at its
only model.  The `on_item_focus` callback is represented by the `Option Nat`
each cursor move returns: `some a` records that the callback would be invoked
with argument `a`, `none` that it would not fire. -/
structure TreeView where
  model : LspTreeModel
  is_collapsed : Finset Nat
  focus : Option Nat
  focused_row : Option Nat
  deriving DecidableEq

/-- `TreeView::new`. -/
def TreeView.new (model : LspTreeModel) : TreeView :=
  { model := model, is_collapsed := ∅, focus := none, focused_row := none }

/-- `TreeView::focus_first` (no callback is fired there). -/
def TreeView.focus_first (v : TreeView) : TreeView :=
  { v with focus := v.model.get_first }

/-- `TreeView::move_cursor_down` (`tree/mod.rs` lines 210-235); the returned
option is the argument the `on_item_focus` callback is invoked with (the
previous focus), if it fires. -/
def TreeView.move_cursor_down (v : TreeView) : TreeView × Option Nat :=
  match v.focus with
  | none => (v.focus_first, none)
  | some ix =>
    let item := v.model.get_item ix
    let v' :=
      if item.children.length = 0 ∨ ix ∈ v.is_collapsed then
        match (v.model.next_sibling ix).orElse (fun _ => v.model.next_uncle ix) with
        | some j => { v with focus := some j }
        | none => v
      else { v with focus := some (item.children.getD 0 0) }
    (v', if v'.focus ≠ some ix then some ix else none)

/-- `TreeView::move_cursor_up` (`tree/mod.rs` lines 237-250); the callback
argument is the shadowing `ix` of the source, i.e. the new focus. -/
def TreeView.move_cursor_up (v : TreeView) : TreeView × Option Nat :=
  match v.focus with
  | none => (v.focus_first, none)
  | some ix =>
    let item := v.model.get_item ix
    match (v.model.prev_sibling ix).orElse (fun _ => item.parent) with
    | some j => ({ v with focus := some j }, some j)
    | none => (v, none)

/-- `TreeView::toggle_collapse`: `if !remove(ix) { insert(ix) }`. -/
def TreeView.toggle_collapse (v : TreeView) (ix : Nat) : TreeView :=
  if ix ∈ v.is_collapsed then { v with is_collapsed := v.is_collapsed.erase ix }
  else { v with is_collapsed := insert ix v.is_collapsed }

/-- Key events the view handles (`handle_event`, `tree/mod.rs` lines 380-427). -/
inductive TreeKey where
  | q
  | up
  | down
  | enter
  deriving DecidableEq

/-- `TreeView::handle_event` restricted to its state effects.  `none` models a
panic: after `Up`/`Down` the source logging block runs
`let ix = self.focus.unwrap();` followed by `self.get_item(ix)`, so a `None`
focus, or a focus outside the store, aborts the process. -/
def TreeView.handle_event (v : TreeView) (k : TreeKey) : Option TreeView :=
  match k with
  | .q => some v
  | .up =>
    let v := (v.move_cursor_up).1
    match v.focus with
    | some ix => if ix < v.model.size then some v else none
    | none => none
  | .down =>
    let v := (v.move_cursor_down).1
    match v.focus with
    | some ix => if ix < v.model.size then some v else none
    | none => none
  | .enter =>
    match v.focus with
    | some focused => some (v.toggle_collapse focused)
    | none => some v

/-- Concatenating traversal in the `Option` monad: runs `f` on each list entry
in order and appends the produced row blocks; `none` if any call fails. -/
def optCat {A : Type} (f : Nat → Option (List A)) : List Nat → Option (List A)
  | [] => some []
  | c :: cs =>
    match f c, optCat f cs with
    | some r, some rest => some (r ++ rest)
    | _, _ => none

/-- `TreeView::render_rows` (`tree/mod.rs` lines 270-305), fuelled.  A row is
the emitting node's index paired with the emitted line
(`{indent}{indicator}{item.render()}`); the source pushes rows into a `&mut
Vec`, modelled here by returning the block of rows the call produces (the
caller appends).  The `self.focused_row` bookkeeping is the position of the
focused node's row in the final list and is recovered below from the row's
recorded index. -/
def render_rowsF (m : LspTreeModel) (coll : Finset Nat) : Nat → Nat → Nat → Option (List (Nat × String))
  | 0, _, _ => none
  | fuel + 1, ix, level =>
    let item := m.get_item ix
    let child_count := item.children.length
    let indicator := if child_count > 0 then (if ix ∈ coll then "⏵ " else "⏷ ") else ""
    let row : Nat × String := (ix, String.mk (List.replicate level ' ') ++ indicator ++ item.name)
    if child_count > 0 ∧ ix ∈ coll then some [row]
    else (optCat (fun c => render_rowsF m coll fuel c (level + 2)) item.children).map
      (fun rest => row :: rest)

/-- The root walk of `Component::render` (`tree/mod.rs` lines 327-343): every
root's subtree rows in root-list order, at canonical fuel. -/
def render_all (m : LspTreeModel) (coll : Finset Nat) : Option (List (Nat × String)) :=
  optCat (fun r => render_rowsF m coll (m.size + 1) r 0) m.roots

/-- The pre-order index list of the subtree rooted at `ix` (the node followed
by all its descendants).  This is the spec-side notion backing
`count_descendants`; it follows the same child walk as the renderer but
ignores collapse state. -/
def subtreeF (m : LspTreeModel) : Nat → Nat → Option (List Nat)
  | 0, _ => none
  | fuel + 1, ix =>
    (optCat (fun c => subtreeF m fuel c) (m.get_item ix).children).map (fun ds => ix :: ds)

/-- The spec's `count_descendants(node)`: number of strict descendants. -/
def count_descendants (m : LspTreeModel) (ix : Nat) : Option Nat :=
  (subtreeF m (m.size + 1) ix).map (fun l => l.length - 1)

mutual

/-- `LspTreeModel::new`'s inner builder `tr2` (`lsp_tree.rs` lines 59-89): push
a placeholder item at index `len`, recursively build the children, then
backfill the completed child-index list into the stored item. -/
def tr2 : List Item → DocSym → Option Nat → Nat → List Item × Nat
  | items, .mk name children, parent, child_ix =>
    let index := items.length
    let items1 := items ++ [⟨name, [], index, child_ix, parent⟩]
    let p := tr2List items1 children (some index) 0
    (p.1.set index ⟨name, p.2, index, child_ix, parent⟩, index)

/-- The `enumerate().map(...)` drive of `tr2` over a sibling list, returning
the updated store and the indices assigned to the list's entries. -/
def tr2List : List Item → DocSymList → Option Nat → Nat → List Item × List Nat
  | items, .nil, _, _ => (items, [])
  | items, .cons s rest, parent, j =>
    let p := tr2 items s parent j
    let q := tr2List p.1 rest parent (j + 1)
    (q.1, p.2 :: q.2)

end

/-- `LspTreeModel::new`: build the arena from a nested payload. -/
def LspTreeModel.new (symbols : DocSymList) : LspTreeModel :=
  let p := tr2List [] symbols none 0
  { roots := p.2, lsp_items := p.1 }

/-- The column-generic engine's model (`TreeModel` in
`helix-tui/src/widgets/tree.rs`): per-node vectors `collapsed`, `parent`,
`child_ref`, `children`, the root list, and the focus row.  The per-cell
`data`/`Row` payload and the focus style are display-only and not read by any
navigation or cursor operation, so they are omitted; the focus callback is
recorded as the `Option Nat` returned by the cursor moves, as for `TreeView`. -/
structure WTreeModel where
  roots : List Nat
  collapsed : List Bool
  parent : List (Option Nat)
  child_ref : List Nat
  children : List (List Nat)
  focus_row : Option Nat
  deriving DecidableEq

/-- `TreeModel::next_sibling` (`widgets/tree.rs` lines 102-119). -/
def WTreeModel.w_next_sibling (w : WTreeModel) (ix : Nat) : Option Nat :=
  let child_index := w.child_ref.getD ix 0
  match w.parent.getD ix none with
  | some parent_ix =>
    let children := w.children.getD parent_ix []
    if children.length > child_index + 1 then some (children.getD (child_index + 1) 0)
    else none
  | none =>
    if w.roots.length > child_index + 1 then some (w.roots.getD (child_index + 1) 0)
    else none

/-- `TreeModel::prev_sibling` (`widgets/tree.rs` lines 121-137).  Note the
root branch of the source returns `self.roots[*child_index]` — without the
`- 1` its sibling branch and the trait-based variant both apply. -/
def WTreeModel.w_prev_sibling (w : WTreeModel) (ix : Nat) : Option Nat :=
  let child_index := w.child_ref.getD ix 0
  match w.parent.getD ix none with
  | some parent_ix =>
    if child_index > 0 then some ((w.children.getD parent_ix []).getD (child_index - 1) 0)
    else none
  | none =>
    if child_index > 0 then some (w.roots.getD child_index 0)
    else none

/-- `TreeModel::next_uncle` (`widgets/tree.rs` lines 139-164), fuelled for the
`self.next_uncle(parent_ix)` recursion. -/
def WTreeModel.w_next_uncleF (w : WTreeModel) : Nat → Nat → Option Nat
  | 0, _ => none
  | fuel + 1, ix =>
    match w.parent.getD ix none with
    | some parent_ix =>
      let child_index := w.child_ref.getD parent_ix 0
      match w.parent.getD parent_ix none with
      | some grandparent_ix =>
        let grandparent_children := w.children.getD grandparent_ix []
        if grandparent_children.length > child_index + 1 then
          some (grandparent_children.getD (child_index + 1) 0)
        else w.w_next_uncleF fuel parent_ix
      | none =>
        if w.roots.length > child_index + 1 then some (w.roots.getD (child_index + 1) 0)
        else none
    | none => none

/-- `next_uncle` of the column-generic engine at canonical fuel. -/
def WTreeModel.w_next_uncle (w : WTreeModel) (ix : Nat) : Option Nat :=
  w.w_next_uncleF (ix + 1) ix

/-- `TreeModel::prev_uncle` (`widgets/tree.rs` lines 166-190), fuelled. -/
def WTreeModel.w_prev_uncleF (w : WTreeModel) : Nat → Nat → Option Nat
  | 0, _ => none
  | fuel + 1, ix =>
    match w.parent.getD ix none with
    | some parent_ix =>
      let child_index := w.child_ref.getD parent_ix 0
      match w.parent.getD parent_ix none with
      | some grandparent_ix =>
        if child_index > 0 then
          some ((w.children.getD grandparent_ix []).getD (child_index - 1) 0)
        else w.w_prev_uncleF fuel parent_ix
      | none =>
        if child_index > 0 then some (w.roots.getD (child_index - 1) 0)
        else none
    | none => none

/-- `prev_uncle` of the column-generic engine at canonical fuel. -/
def WTreeModel.w_prev_uncle (w : WTreeModel) (ix : Nat) : Option Nat :=
  w.w_prev_uncleF (ix + 1) ix

/-- `TreeModel::focus_first` (`widgets/tree.rs` lines 196-198). -/
def WTreeModel.w_focus_first (w : WTreeModel) : WTreeModel :=
  { w with focus_row := w.roots.get? 0 }

/-- `TreeModel::move_cursor_down` (`widgets/tree.rs` lines 200-221), with the
callback argument (the previous focus) returned like for `TreeView`. -/
def WTreeModel.w_move_cursor_down (w : WTreeModel) : WTreeModel × Option Nat :=
  match w.focus_row with
  | none => (w.w_focus_first, none)
  | some ix =>
    let children := w.children.getD ix []
    let w' :=
      if children.length = 0 ∨ w.collapsed.getD ix false then
        match (w.w_next_sibling ix).orElse (fun _ => w.w_next_uncle ix) with
        | some j => { w with focus_row := some j }
        | none => w
      else { w with focus_row := some (children.getD 0 0) }
    (w', if w'.focus_row ≠ some ix then some ix else none)

/-- The data of the trait-based model laid out in the column-generic model's
vectors (same parent, children and sibling-position data, nothing collapsed). -/
def LspTreeModel.toW (m : LspTreeModel) : WTreeModel :=
  { roots := m.roots
    collapsed := m.lsp_items.map (fun _ => false)
    parent := m.lsp_items.map (fun i => i.parent)
    child_ref := m.lsp_items.map (fun i => i.child_ix)
    children := m.lsp_items.map (fun i => i.children)
    focus_row := none }

/-- The inner per-column root loop of `<&TreeModel as Widget>::render`
(`widgets/tree.rs` lines 299-307): `for row in &self.roots` runs
`self.roots.len()` times, each iteration evaluating `self.roots[index]` and
then incrementing `index`.  `none` models the index panic. -/
def scanRootsLoop (roots : List Nat) : Nat → Nat → Option Nat
  | 0, index => some index
  | k + 1, index =>
    if index < roots.length then scanRootsLoop roots k (index + 1) else none

/-- The column loop of `<&TreeModel as Widget>::render` (`widgets/tree.rs`
lines 293-311): `index` is initialised once, before `for col in 0..COLUMNS`,
and is never reset between columns.  Returns the final value of `index`, or
`none` if some iteration's `self.roots[index]` is out of bounds (a panic). -/
def scanColsLoop (roots : List Nat) : Nat → Nat → Option Nat
  | 0, index => some index
  | c + 1, index =>
    match scanRootsLoop roots roots.length index with
    | some index' => scanColsLoop roots c index'
    | none => none

/-- The root-list indexing behaviour of the column-generic `Widget::render`
for a given column count. -/
def widget_render_scan (columns : Nat) (roots : List Nat) : Option Nat :=
  scanColsLoop roots columns 0

/-- The pre-order start positions of the subtree blocks of a sibling list laid
out consecutively from `base`: block `b` starts right after the whole subtree
of block `b - 1`. -/
def childStarts : DocSymList → Nat → List Nat
  | .nil, _ => []
  | .cons s rest, base => base :: childStarts rest (base + symSize s)

mutual

/-- Closed form of the store `tr2` produces for one payload subtree placed at
index `base`: the node itself (children backfilled to the block starts of its
child list) followed by the stores of its children. -/
def flatItems : DocSym → Nat → Option Nat → Nat → List Item
  | .mk name cs, base, parent, child_ix =>
    ⟨name, childStarts cs (base + 1), base, child_ix, parent⟩ ::
      flatList cs (base + 1) (some base) 0

/-- Closed form of the store `tr2List` produces for a sibling list placed at
`base` with positions starting at `j`. -/
def flatList : DocSymList → Nat → Option Nat → Nat → List Item
  | .nil, _, _, _ => []
  | .cons s rest, base, parent, j =>
    flatItems s base parent j ++ flatList rest (base + symSize s) parent (j + 1)

end

mutual

/-- The payload subtree whose root sits at pre-order offset `k` inside a
subtree (offset 0 is the subtree itself). -/
def symAtSym : DocSym → Nat → Option DocSym
  | s, 0 => some s
  | .mk _ cs, k + 1 => symAt cs k

/-- The payload subtree whose root sits at pre-order offset `k` inside the
flat layout of a sibling list. -/
def symAt : DocSymList → Nat → Option DocSym
  | .nil, _ => none
  | .cons s rest, k => if k < symSize s then symAtSym s k else symAt rest (k - symSize s)

end

mutual

/-- Pre-order name list of one payload subtree (the direct recursive walk of
the source nested payload). -/
def preNamesSym : DocSym → List String
  | .mk n cs => n :: preNames cs

/-- Pre-order name list of a payload sibling list. -/
def preNames : DocSymList → List String
  | .nil => []
  | .cons s rest => preNamesSym s ++ preNames rest

end

/-- Iterated "move down": the view after `k` presses of Down. -/
def downIter (v : TreeView) : Nat → TreeView
  | 0 => v
  | k + 1 => ((downIter v k).move_cursor_down).1

/-- Position `b` of `sibs` holds `i`, position `b + 1` (when it exists) holds
`iEnd` (the index right after `i`'s subtree), and when `b` is the last
position, `i`'s subtree ends at `endAll` (the end of the whole sibling row). -/
def SibRow (sibs : List Nat) (b i iEnd endAll : Nat) : Prop :=
  b < sibs.length ∧ sibs.getD b 0 = i ∧
    (b + 1 < sibs.length → sibs.getD (b + 1) 0 = iEnd) ∧
    (b + 1 = sibs.length → iEnd = endAll)

/-- Context of a sibling row inside the arena: either it is the root row, or
it is the child row of a node `p` lying before `base` whose subtree ends at
`endAll`. -/
def ParentFrame (ss : DocSymList) (m : LspTreeModel) (n : Nat) (parent : Option Nat)
    (sibs : List Nat) (base endAll : Nat) : Prop :=
  (parent = none ∧ sibs = m.roots ∧ endAll = n) ∨
    (∃ p sp, parent = some p ∧ p < base ∧ p < n ∧ symAt ss p = some sp ∧
      (m.get_item p).children = sibs ∧ endAll = p + symSize sp)

/-- Full placement description of node `i` of the arena built from `ss`: its
stored item realises the pre-order layout of the payload subtree `symAt ss i`,
and its sibling row (the root row or its parent's child row) is consistent
with that layout. -/
def Placed (ss : DocSymList) (m : LspTreeModel) (n i : Nat) : Prop :=
  ∃ s, symAt ss i = some s ∧
    (m.get_item i).name = s.name ∧
    (m.get_item i).children = childStarts s.children (i + 1) ∧
    (m.get_item i).ix = i ∧
    (∀ k, k < symSize s → m.get_item (i + k) =
      (flatItems s i ((m.get_item i).parent) ((m.get_item i).child_ix)).getD k default) ∧
    i + symSize s ≤ n ∧
    ((∃ b, (m.get_item i).parent = none ∧ (m.get_item i).child_ix = b ∧
        SibRow m.roots b i (i + symSize s) n) ∨
      (∃ p sp b, (m.get_item i).parent = some p ∧ p < i ∧ p < n ∧ symAt ss p = some sp ∧
        (m.get_item i).child_ix = b ∧
        SibRow (m.get_item p).children b i (i + symSize s) (p + symSize sp)))

/-- Well-formed forest, stated for the trait-based arena: every stored link is
in bounds and mutually consistent (children point back to their parent with
the right recorded position, parents precede children, the root row positions
are consistent), and each item records its own index.  Every arena the adapter
builds satisfies this. -/
@[reducible] def WFm (m : LspTreeModel) : Prop :=
  (∀ i, i < m.size → (m.get_item i).ix = i) ∧
  (∀ i, i < m.size → ∀ p ∈ (m.get_item i).parent,
    p < i ∧ p < m.size ∧ (m.get_item i).child_ix < (m.get_item p).children.length ∧
      (m.get_item p).children.getD (m.get_item i).child_ix 0 = i) ∧
  (∀ i, i < m.size → (m.get_item i).parent = none →
    (m.get_item i).child_ix < m.roots.length ∧
      m.roots.getD (m.get_item i).child_ix 0 = i) ∧
  (∀ i, i < m.size → ∀ c ∈ (m.get_item i).children, i < c ∧ c < m.size) ∧
  (∀ r ∈ m.roots, r < m.size) ∧
  (∀ i, i < m.size → ∀ k, k < (m.get_item i).children.length →
    (m.get_item ((m.get_item i).children.getD k 0)).parent = some i ∧
      (m.get_item ((m.get_item i).children.getD k 0)).child_ix = k) ∧
  (∀ k, k < m.roots.length →
    (m.get_item (m.roots.getD k 0)).parent = none ∧
      (m.get_item (m.roots.getD k 0)).child_ix = k)

/-- Payload `A → [B [D], C]` (the three-level example tree of the spec). -/
def exABDC : DocSymList :=
  .cons (.mk "A" (.cons (.mk "B" (.cons (.mk "D" .nil) .nil))
    (.cons (.mk "C" .nil) .nil))) .nil

/-- Payload `A → [B]`: one root with a single leaf child. -/
def exAB : DocSymList := .cons (.mk "A" (.cons (.mk "B" .nil) .nil)) .nil

/-- Payload `[A]`: a single leaf root. -/
def exLeaf : DocSymList := .cons (.mk "A" .nil) .nil

/-- Payload `[A, B]`: two leaf roots. -/
def exTwoRoots : DocSymList := .cons (.mk "A" .nil) (.cons (.mk "B" .nil) .nil)

/-- The empty payload (zero top-level symbols). -/
def exEmpty : DocSymList := .nil

/-- A well-formed column-generic model with two leaf roots (the same forest
data as `LspTreeModel.new exTwoRoots`). -/
def wTwoRoots : WTreeModel :=
  { roots := [0, 1]
    collapsed := [false, false]
    parent := [none, none]
    child_ref := [0, 1]
    children := [[], []]
    focus_row := none }

/-- The column-generic model holding the same forest as `exABDC`
(`A → [B [D], C]`), focused at `A`. -/
def wABDC : WTreeModel :=
  { roots := [0]
    collapsed := [false, false, false, false]
    parent := [none, some 0, some 1, some 0]
    child_ref := [0, 0, 0, 1]
    children := [[1, 3], [2], [], []]
    focus_row := some 0 }

/-- The trait-based view over `exABDC` focused at the first root `A`. -/
def vABDC : TreeView :=
  { model := LspTreeModel.new exABDC, is_collapsed := ∅, focus := some 0, focused_row := none }

/-- The trait-based view over the single-leaf payload, focused on the leaf. -/
def vLeaf : TreeView :=
  { model := LspTreeModel.new exLeaf, is_collapsed := ∅, focus := some 0, focused_row := none }

/-- The trait-based view over `exAB` focused at the child node `B`. -/
def vAB1 : TreeView :=
  { model := LspTreeModel.new exAB, is_collapsed := ∅, focus := some 1, focused_row := none }

theorem symSize_pos (s : DocSym) : 0 < symSize s := by
  cases s with
  | mk n cs => simp [symSize]

theorem set_append_length {α : Type} (l1 l2 : List α) (a b : α) :
    (l1 ++ a :: l2).set l1.length b = l1 ++ b :: l2 := by
  induction l1 with
  | nil => rfl
  | cons x xs ih => simp [List.set, ih]

mutual

theorem flatItems_length : ∀ (s : DocSym) (base : Nat) (parent : Option Nat) (j : Nat),
    (flatItems s base parent j).length = symSize s
  | .mk name cs, base, parent, j => by
    simp [flatItems, symSize, flatList_length cs (base + 1) (some base) 0]
    omega

theorem flatList_length : ∀ (ss : DocSymList) (base : Nat) (parent : Option Nat) (j : Nat),
    (flatList ss base parent j).length = symSizeList ss
  | .nil, _, _, _ => by simp [flatList, symSizeList]
  | .cons s rest, base, parent, j => by
    simp [flatList, symSizeList, flatItems_length s base parent j,
      flatList_length rest (base + symSize s) parent (j + 1)]

end

mutual

theorem tr2_eq : ∀ (s : DocSym) (items : List Item) (parent : Option Nat) (j : Nat),
    tr2 items s parent j = (items ++ flatItems s items.length parent j, items.length)
  | .mk name cs, items, parent, j => by
    have h := tr2List_eq cs (items ++ [⟨name, [], items.length, j, parent⟩])
      (some items.length) 0
    simp only [List.length_append, List.length_cons, List.length_nil, Nat.zero_add] at h
    simp only [tr2, h, flatItems, List.append_assoc, List.cons_append, List.nil_append]
    rw [set_append_length]

theorem tr2List_eq : ∀ (ss : DocSymList) (items : List Item) (parent : Option Nat) (j : Nat),
    tr2List items ss parent j =
      (items ++ flatList ss items.length parent j, childStarts ss items.length)
  | .nil, items, _, _ => by simp [tr2List, flatList, childStarts]
  | .cons s rest, items, parent, j => by
    have h1 := tr2_eq s items parent j
    have h2 := tr2List_eq rest (items ++ flatItems s items.length parent j) parent (j + 1)
    simp only [tr2List, h1, h2, flatList, childStarts, List.length_append,
      flatItems_length, List.append_assoc]

end

theorem new_lsp_items (ss : DocSymList) :
    (LspTreeModel.new ss).lsp_items = flatList ss 0 none 0 := by
  simp [LspTreeModel.new, tr2List_eq ss [] none 0]

theorem new_roots (ss : DocSymList) :
    (LspTreeModel.new ss).roots = childStarts ss 0 := by
  simp [LspTreeModel.new, tr2List_eq ss [] none 0]

theorem new_size (ss : DocSymList) : (LspTreeModel.new ss).size = symSizeList ss := by
  simp [LspTreeModel.size, new_lsp_items, flatList_length]

theorem childStarts_length : ∀ (ss : DocSymList) (base : Nat),
    (childStarts ss base).length = symLen ss
  | .nil, _ => by simp [childStarts, symLen]
  | .cons s rest, base => by
    simp [childStarts, symLen, childStarts_length rest (base + symSize s)]
    omega

theorem getD_eq_drop_getD {α : Type} (l : List α) (j : Nat) (d : α) :
    l.getD j d = (l.drop j).getD 0 d := by
  induction l generalizing j with
  | nil => simp
  | cons x xs ih =>
    cases j with
    | zero => simp
    | succ j => simp [List.drop, ih j]

theorem getD_of_drop {α : Type} {l : List α} {j : Nat} {a : α} {t : List α}
    (h : l.drop j = a :: t) (d : α) : l.getD j d = a := by
  rw [getD_eq_drop_getD, h]
  rfl

theorem drop_succ_of_drop {α : Type} {l : List α} {j : Nat} {a : α} {t : List α}
    (h : l.drop j = a :: t) : l.drop (j + 1) = t := by
  have : l.drop (j + 1) = (l.drop j).drop 1 := by
    rw [List.drop_drop]
  rw [this, h]
  rfl

theorem flatList_getD_left (s : DocSym) (rest : DocSymList) (base : Nat)
    (parent : Option Nat) (j k : Nat) (h : k < symSize s) (d : Item) :
    (flatList (.cons s rest) base parent j).getD k d = (flatItems s base parent j).getD k d := by
  rw [flatList, List.getD_append]
  rw [flatItems_length]
  exact h

theorem flatList_getD_right (s : DocSym) (rest : DocSymList) (base : Nat)
    (parent : Option Nat) (j k : Nat) (h : symSize s ≤ k) (d : Item) :
    (flatList (.cons s rest) base parent j).getD k d =
      (flatList rest (base + symSize s) parent (j + 1)).getD (k - symSize s) d := by
  rw [flatList, List.getD_append_right]
  · rw [flatItems_length]
  · rw [flatItems_length]
    exact h

theorem flatItems_getD_zero (name : String) (cs : DocSymList) (base : Nat)
    (parent : Option Nat) (j : Nat) (d : Item) :
    (flatItems (.mk name cs) base parent j).getD 0 d =
      ⟨name, childStarts cs (base + 1), base, j, parent⟩ := by
  rfl

theorem flatItems_getD_succ (name : String) (cs : DocSymList) (base : Nat)
    (parent : Option Nat) (j k : Nat) (d : Item) :
    (flatItems (.mk name cs) base parent j).getD (k + 1) d =
      (flatList cs (base + 1) (some base) 0).getD k d := by
  rfl

theorem symAt_cons_lt (s : DocSym) (rest : DocSymList) (k : Nat) (h : k < symSize s) :
    symAt (.cons s rest) k = symAtSym s k := by
  simp [symAt, h]

theorem symAt_cons_ge (s : DocSym) (rest : DocSymList) (k : Nat) (h : symSize s ≤ k) :
    symAt (.cons s rest) k = symAt rest (k - symSize s) := by
  simp [symAt, Nat.not_lt.mpr h]

theorem symAtSym_zero (s : DocSym) : symAtSym s 0 = some s := by
  cases s
  rfl

theorem symAtSym_succ (name : String) (cs : DocSymList) (k : Nat) :
    symAtSym (.mk name cs) (k + 1) = symAt cs k := by
  rfl

theorem parentFrame_mono {ss : DocSymList} {m : LspTreeModel} {n : Nat}
    {parent : Option Nat} {sibs : List Nat} {endAll : Nat} {base base' : Nat}
    (hb : base ≤ base') (h : ParentFrame ss m n parent sibs base endAll) :
    ParentFrame ss m n parent sibs base' endAll := by
  rcases h with h | ⟨p, sp, h1, h2, h3, h4, h5, h6⟩
  · exact Or.inl h
  · exact Or.inr ⟨p, sp, h1, Nat.lt_of_lt_of_le h2 hb, h3, h4, h5, h6⟩

mutual

theorem sliceSym : ∀ (s : DocSym) (ss : DocSymList) (m : LspTreeModel) (n base j : Nat)
    (parent : Option Nat) (sibs : List Nat) (endAll : Nat),
    (∀ k, k < symSize s →
      m.get_item (base + k) = (flatItems s base parent j).getD k default) →
    (∀ k, k < symSize s → symAt ss (base + k) = symAtSym s k) →
    base + symSize s ≤ n →
    SibRow sibs j base (base + symSize s) endAll →
    ParentFrame ss m n parent sibs base endAll →
    ∀ k, k < symSize s → Placed ss m n (base + k)
  | .mk name cs, ss, m, n, base, j, parent, sibs, endAll => by
    intro H1 H2 H3 H4 H5 k hk
    have hsz : symSize (DocSym.mk name cs) = 1 + symSizeList cs := rfl
    have hk0 : (0 : Nat) < symSize (DocSym.mk name cs) := by rw [hsz]; omega
    have hItem0 : m.get_item base = ⟨name, childStarts cs (base + 1), base, j, parent⟩ := by
      have := H1 0 hk0
      rw [Nat.add_zero] at this
      rw [this, flatItems_getD_zero]
    have hSym0 : symAt ss base = some (DocSym.mk name cs) := by
      have := H2 0 hk0
      rw [Nat.add_zero] at this
      rw [this, symAtSym_zero]
    cases k with
    | zero =>
      rw [Nat.add_zero]
      refine ⟨DocSym.mk name cs, hSym0, ?_, ?_, ?_, ?_, ?_, ?_⟩
      · rw [hItem0]; rfl
      · rw [hItem0]; rfl
      · rw [hItem0]
      · intro k hk
        rw [hItem0]
        exact H1 k hk
      · exact H3
      · rcases H5 with ⟨hpn, hsibs, hend⟩ | ⟨p, sp, hp, hpb, hpn, hsp, hpc, hend⟩
        · refine Or.inl ⟨j, ?_, ?_, ?_⟩
          · rw [hItem0, hpn]
          · rw [hItem0]
          · rw [← hsibs, ← hend]; exact H4
        · refine Or.inr ⟨p, sp, j, ?_, hpb, hpn, hsp, ?_, ?_⟩
          · rw [hItem0, hp]
          · rw [hItem0]
          · rw [hpc, ← hend]; exact H4
    | succ o =>
      have ho : o < symSizeList cs := by rw [hsz] at hk; omega
      have H1s : ∀ o', o' < symSizeList cs → m.get_item (base + 1 + o') =
          (flatList cs (base + 1) (some base) 0).getD o' default := by
        intro o' ho'
        have he : base + 1 + o' = base + (o' + 1) := by omega
        rw [he, H1 (o' + 1) (by rw [hsz]; omega), flatItems_getD_succ]
      have H2s : ∀ o', o' < symSizeList cs → symAt ss (base + 1 + o') = symAt cs o' := by
        intro o' ho'
        have he : base + 1 + o' = base + (o' + 1) := by omega
        rw [he, H2 (o' + 1) (by rw [hsz]; omega), symAtSym_succ]
      have H3s : base + 1 + symSizeList cs ≤ n := by rw [hsz] at H3; omega
      have hPF : ParentFrame ss m n (some base) (childStarts cs (base + 1)) (base + 1)
          (base + symSize (DocSym.mk name cs)) := by
        refine Or.inr ⟨base, DocSym.mk name cs, rfl, by omega, ?_, hSym0, ?_, rfl⟩
        · have := symSize_pos (DocSym.mk name cs)
          omega
        · rw [hItem0]
      have key := sliceList cs ss m n (base + 1) 0 (some base) (childStarts cs (base + 1))
        (base + symSize (DocSym.mk name cs)) H1s H2s H3s rfl
        (by rw [childStarts_length]; omega) (by rw [hsz]; omega) hPF o ho
      have he : base + 1 + o = base + (o + 1) := by omega
      rwa [he] at key

theorem sliceList : ∀ (sub ss : DocSymList) (m : LspTreeModel) (n base j : Nat)
    (parent : Option Nat) (sibs : List Nat) (endAll : Nat),
    (∀ k, k < symSizeList sub →
      m.get_item (base + k) = (flatList sub base parent j).getD k default) →
    (∀ k, k < symSizeList sub → symAt ss (base + k) = symAt sub k) →
    base + symSizeList sub ≤ n →
    sibs.drop j = childStarts sub base →
    sibs.length = j + symLen sub →
    endAll = base + symSizeList sub →
    ParentFrame ss m n parent sibs base endAll →
    ∀ k, k < symSizeList sub → Placed ss m n (base + k)
  | .nil, ss, m, n, base, j, parent, sibs, endAll => by
    intro _ _ _ _ _ _ _ k hk
    simp [symSizeList] at hk
  | .cons s rest, ss, m, n, base, j, parent, sibs, endAll => by
    intro H1 H2 H3 hdrop hlen hend H5 k hk
    have hszl : symSizeList (DocSymList.cons s rest) = symSize s + symSizeList rest := rfl
    have hcs : childStarts (DocSymList.cons s rest) base =
        base :: childStarts rest (base + symSize s) := rfl
    rw [hcs] at hdrop
    by_cases hks : k < symSize s
    · have hgj : sibs.getD j 0 = base := getD_of_drop hdrop 0
      have hSR : SibRow sibs j base (base + symSize s) endAll := by
        refine ⟨?_, hgj, ?_, ?_⟩
        · rw [hlen]; simp [symLen]
        · intro hj1
          have hd1 := drop_succ_of_drop hdrop
          cases rest with
          | nil =>
            rw [hlen] at hj1
            simp [symLen] at hj1
          | cons s' r' =>
            have hd2 : sibs.drop (j + 1) =
                (base + symSize s) :: childStarts r' (base + symSize s + symSize s') := by
              rw [hd1]
              rfl
            exact getD_of_drop hd2 0
        · intro hj1
          cases rest with
          | nil =>
            rw [hend]
            simp [symSizeList]
          | cons s' r' =>
            rw [hlen] at hj1
            simp [symLen] at hj1
      have H1s : ∀ k', k' < symSize s →
          m.get_item (base + k') = (flatItems s base parent j).getD k' default := by
        intro k' hk'
        rw [H1 k' (by rw [hszl]; omega), flatList_getD_left s rest base parent j k' hk']
      have H2s : ∀ k', k' < symSize s → symAt ss (base + k') = symAtSym s k' := by
        intro k' hk'
        rw [H2 k' (by rw [hszl]; omega), symAt_cons_lt s rest k' hk']
      have H3s : base + symSize s ≤ n := by rw [hszl] at H3; omega
      exact sliceSym s ss m n base j parent sibs endAll H1s H2s H3s hSR H5 k hks
    · push_neg at hks
      have hd1 : sibs.drop (j + 1) = childStarts rest (base + symSize s) :=
        drop_succ_of_drop hdrop
      have H1r : ∀ k', k' < symSizeList rest →
          m.get_item (base + symSize s + k') =
            (flatList rest (base + symSize s) parent (j + 1)).getD k' default := by
        intro k' hk'
        have he : base + symSize s + k' = base + (symSize s + k') := by omega
        rw [he, H1 (symSize s + k') (by rw [hszl]; omega),
          flatList_getD_right s rest base parent j (symSize s + k') (by omega)]
        congr 1
        omega
      have H2r : ∀ k', k' < symSizeList rest →
          symAt ss (base + symSize s + k') = symAt rest k' := by
        intro k' hk'
        have he : base + symSize s + k' = base + (symSize s + k') := by omega
        rw [he, H2 (symSize s + k') (by rw [hszl]; omega),
          symAt_cons_ge s rest (symSize s + k') (by omega)]
        congr 1
        omega
      have H3r : base + symSize s + symSizeList rest ≤ n := by rw [hszl] at H3; omega
      have hlenr : sibs.length = j + 1 + symLen rest := by rw [hlen]; simp [symLen]; omega
      have hendr : endAll = base + symSize s + symSizeList rest := by rw [hend, hszl]; omega
      have key := sliceList rest ss m n (base + symSize s) (j + 1) parent sibs endAll
        H1r H2r H3r hd1 hlenr hendr (parentFrame_mono (by omega) H5) (k - symSize s)
        (by rw [hszl] at hk; omega)
      have he : base + symSize s + (k - symSize s) = base + k := by omega
      rwa [he] at key

end

theorem placed_all (ss : DocSymList) (i : Nat) (hi : i < symSizeList ss) :
    Placed ss (LspTreeModel.new ss) (symSizeList ss) i := by
  set m := LspTreeModel.new ss with hm
  have H1 : ∀ k, k < symSizeList ss →
      m.get_item (0 + k) = (flatList ss 0 none 0).getD k default := by
    intro k _
    rw [Nat.zero_add]
    rw [hm]
    simp only [LspTreeModel.get_item, new_lsp_items]
  have H2 : ∀ k, k < symSizeList ss → symAt ss (0 + k) = symAt ss k := by
    intro k _
    rw [Nat.zero_add]
  have hdrop : m.roots.drop 0 = childStarts ss 0 := by
    rw [hm]
    simp [new_roots]
  have hlen : m.roots.length = 0 + symLen ss := by
    rw [hm]
    simp [new_roots, childStarts_length]
  have key := sliceList ss ss m (symSizeList ss) 0 0 none m.roots (symSizeList ss)
    H1 H2 (by omega) hdrop hlen (by omega) (Or.inl ⟨rfl, rfl, rfl⟩) i hi
  rwa [Nat.zero_add] at key

theorem childStarts_getD_ge : ∀ (cs : DocSymList) (b k : Nat), k < symLen cs →
    b ≤ (childStarts cs b).getD k 0
  | .nil, b, k => by simp [symLen]
  | .cons s rest, b, k => by
    intro hk
    cases k with
    | zero => simp [childStarts]
    | succ k' =>
      have hr := childStarts_getD_ge rest (b + symSize s) k' (by simp [symLen] at hk; omega)
      simp only [childStarts, List.getD_cons_succ]
      omega

theorem childStarts_getD_ub : ∀ (cs : DocSymList) (b k : Nat), k < symLen cs →
    (childStarts cs b).getD k 0 < b + symSizeList cs
  | .nil, b, k => by simp [symLen]
  | .cons s rest, b, k => by
    intro hk
    cases k with
    | zero =>
      have := symSize_pos s
      simp only [childStarts, List.getD_cons_zero, symSizeList]
      omega
    | succ k' =>
      have hr := childStarts_getD_ub rest (b + symSize s) k' (by simp [symLen] at hk; omega)
      simp only [childStarts, List.getD_cons_succ, symSizeList]
      omega

theorem childStarts_getD_mono : ∀ (cs : DocSymList) (b k1 k2 : Nat), k1 < k2 → k2 < symLen cs →
    (childStarts cs b).getD k1 0 < (childStarts cs b).getD k2 0
  | .nil, b, k1, k2 => by simp [symLen]
  | .cons s rest, b, k1, k2 => by
    intro h12 h2
    cases k2 with
    | zero => omega
    | succ k2' =>
      have hk2' : k2' < symLen rest := by simp [symLen] at h2; omega
      cases k1 with
      | zero =>
        have hge := childStarts_getD_ge rest (b + symSize s) k2' hk2'
        have := symSize_pos s
        simp only [childStarts, List.getD_cons_zero, List.getD_cons_succ]
        omega
      | succ k1' =>
        have := childStarts_getD_mono rest (b + symSize s) k1' k2' (by omega) hk2'
        simp only [childStarts, List.getD_cons_succ]
        exact this

theorem next_uncleF_succ_eq (m : LspTreeModel) (fuel ix : Nat) :
    m.next_uncleF (fuel + 1) ix =
      match (m.get_item ix).parent with
      | some parent =>
        match (m.get_item parent).parent with
        | some grandparent =>
          if (m.get_item grandparent).children.length > (m.get_item parent).child_ix + 1 then
            some ((m.get_item grandparent).children.getD ((m.get_item parent).child_ix + 1) 0)
          else m.next_uncleF fuel (m.get_item parent).ix
        | none =>
          if m.roots.length > (m.get_item parent).child_ix + 1 then
            some (m.roots.getD ((m.get_item parent).child_ix + 1) 0)
          else none
      | none => none := rfl

theorem next_uncleF_stab (ss : DocSymList) (i : Nat) :
    i < symSizeList ss → ∀ f1 f2, i + 1 ≤ f1 → i + 1 ≤ f2 →
      (LspTreeModel.new ss).next_uncleF f1 i = (LspTreeModel.new ss).next_uncleF f2 i := by
  induction i using Nat.strong_induction_on with
  | _ i IH =>
    intro hi f1 f2 h1 h2
    obtain ⟨s, hs, hname, hchild, hix, hframe, hend, hdisj⟩ := placed_all ss i hi
    match f1, h1 with
    | fa + 1, h1 =>
    match f2, h2 with
    | fb + 1, h2 =>
    rw [next_uncleF_succ_eq, next_uncleF_succ_eq]
    rcases hdisj with ⟨b, hpar, hbix, hSR⟩ | ⟨p, sp, b, hpar, hpi, hpn, hsp, hbix, hSR⟩
    · simp only [hpar]
    · simp only [hpar]
      obtain ⟨sp', hsp', hnamep, hchildp, hixp, hframep, hendp, hdisjp⟩ := placed_all ss p hpn
      rcases hdisjp with ⟨bp, hparp, hbixp, hSRp⟩ | ⟨q, sq, bp, hparp, hqp, hqn, hsq, hbixp, hSRp⟩
      · simp only [hparp]
      · simp only [hparp]
        split
        · rfl
        · rw [hixp]
          exact IH p hpi hpn fa fb (by omega) (by omega)

theorem next_sibling_eq (m : LspTreeModel) (ix : Nat) :
    m.next_sibling ix =
      match (m.get_item ix).parent with
      | some parent =>
        if (m.get_item parent).children.length > (m.get_item ix).child_ix + 1 then
          some ((m.get_item parent).children.getD ((m.get_item ix).child_ix + 1) 0)
        else none
      | none =>
        if m.roots.length > (m.get_item ix).child_ix + 1 then
          some (m.roots.getD ((m.get_item ix).child_ix + 1) 0)
        else none := rfl

theorem next_uncle_decomp (ss : DocSymList) (i p : Nat)
    (hpar : ((LspTreeModel.new ss).get_item i).parent = some p) (hpi : p < i)
    (hpn : p < symSizeList ss) :
    (LspTreeModel.new ss).next_uncle i =
      ((LspTreeModel.new ss).next_sibling p).orElse
        (fun _ => (LspTreeModel.new ss).next_uncle p) := by
  obtain ⟨sp, hsp, hnamep, hchildp, hixp, hframep, hendp, hdisjp⟩ := placed_all ss p hpn
  show (LspTreeModel.new ss).next_uncleF (i + 1) i = _
  rw [next_uncleF_succ_eq, next_sibling_eq]
  simp only [hpar]
  rcases hdisjp with ⟨bp, hparp, hbixp, hSRp⟩ | ⟨q, sq, bp, hparp, hqp, hqn, hsq, hbixp, hSRp⟩
  · simp only [hparp]
    split
    · rfl
    · show none = (LspTreeModel.new ss).next_uncleF (p + 1) p
      rw [next_uncleF_succ_eq]
      simp only [hparp]
  · simp only [hparp]
    split
    · rfl
    · rw [hixp]
      show (LspTreeModel.new ss).next_uncleF i p = (LspTreeModel.new ss).next_uncleF (p + 1) p
      exact next_uncleF_stab ss p hpn i (p + 1) (by omega) (by omega)

theorem symSize_eq_children : ∀ s : DocSym, symSize s = 1 + symSizeList s.children
  | .mk _ _ => rfl

theorem main_step (ss : DocSymList) (i : Nat) :
    i < symSizeList ss → ∀ s, symAt ss i = some s →
      ((LspTreeModel.new ss).next_sibling i).orElse
          (fun _ => (LspTreeModel.new ss).next_uncle i) =
        if i + symSize s < symSizeList ss then some (i + symSize s) else none := by
  induction i using Nat.strong_induction_on with
  | _ i IH =>
    intro hi s hs
    obtain ⟨s', hs', hname, hchild, hix, hframe, hend, hdisj⟩ := placed_all ss i hi
    rw [hs] at hs'
    injection hs' with hseq
    subst hseq
    rw [next_sibling_eq]
    rcases hdisj with ⟨b, hpar, hbix, hSR⟩ | ⟨p, sp, b, hpar, hpi, hpn, hsp, hbix, hSR⟩
    · obtain ⟨hblen, hbval, hnext, hlast⟩ := hSR
      simp only [hpar, hbix]
      by_cases hg : (LspTreeModel.new ss).roots.length > b + 1
      · rw [if_pos hg]
        have hval := hnext hg
        have hub : (LspTreeModel.new ss).roots.getD (b + 1) 0 < 0 + symSizeList ss := by
          rw [new_roots]
          refine childStarts_getD_ub ss 0 (b + 1) ?_
          have hrl : (LspTreeModel.new ss).roots.length = symLen ss := by
            rw [new_roots, childStarts_length]
          omega
        rw [hval] at hub
        rw [if_pos (by omega)]
        show some ((LspTreeModel.new ss).roots.getD (b + 1) 0) = some (i + symSize s)
        rw [hval]
      · rw [if_neg hg]
        have hlastval : i + symSize s = symSizeList ss := hlast (by omega)
        have huncle : (LspTreeModel.new ss).next_uncle i = none := by
          show (LspTreeModel.new ss).next_uncleF (i + 1) i = none
          rw [next_uncleF_succ_eq]
          simp only [hpar]
        rw [if_neg (by omega)]
        show (LspTreeModel.new ss).next_uncle i = none
        exact huncle
    · obtain ⟨hblen, hbval, hnext, hlast⟩ := hSR
      obtain ⟨sp', hsp2, hnamep, hchildp, hixp, hframep, hendp, hdisjp⟩ := placed_all ss p hpn
      rw [hsp] at hsp2
      injection hsp2 with hspeq
      subst hspeq
      simp only [hpar, hbix]
      by_cases hg : ((LspTreeModel.new ss).get_item p).children.length > b + 1
      · rw [if_pos hg]
        have hval := hnext hg
        have hub : ((LspTreeModel.new ss).get_item p).children.getD (b + 1) 0 <
            p + 1 + symSizeList sp.children := by
          rw [hchildp]
          refine childStarts_getD_ub sp.children (p + 1) (b + 1) ?_
          have hcl : ((LspTreeModel.new ss).get_item p).children.length = symLen sp.children := by
            rw [hchildp, childStarts_length]
          omega
        rw [hval] at hub
        have hsz : p + 1 + symSizeList sp.children = p + symSize sp := by
          rw [symSize_eq_children]
          omega
        rw [if_pos (by omega)]
        show some (((LspTreeModel.new ss).get_item p).children.getD (b + 1) 0) =
          some (i + symSize s)
        rw [hval]
      · rw [if_neg hg]
        have hlastval : i + symSize s = p + symSize sp := hlast (by omega)
        have hdec := next_uncle_decomp ss i p hpar hpi hpn
        have hIH := IH p hpi hpn sp hsp
        show (LspTreeModel.new ss).next_uncle i = _
        rw [hdec, hIH, hlastval]

theorem docSymList_cases : ∀ ss : DocSymList, ss = .nil ∨ ∃ s rest, ss = .cons s rest
  | .nil => Or.inl rfl
  | .cons s rest => Or.inr ⟨s, rest, rfl⟩

theorem move_down_step (ss : DocSymList) (i : Nat) (hi : i < symSizeList ss)
    (v : TreeView) (hv : v.model = LspTreeModel.new ss) (hc : v.is_collapsed = ∅)
    (hf : v.focus = some i) :
    (v.move_cursor_down).1 =
        (if i + 1 < symSizeList ss then { v with focus := some (i + 1) } else v) ∧
      (v.move_cursor_down).2 = (if i + 1 < symSizeList ss then some i else none) := by
  obtain ⟨s, hs, hname, hchild, hix, hframe, hend, hdisj⟩ := placed_all ss i hi
  have hcc : (v.model.get_item i).children = childStarts s.children (i + 1) := by
    rw [hv]
    exact hchild
  have hstep := main_step ss i hi s hs
  rcases docSymList_cases s.children with hnil | ⟨c, cr, hcons⟩
  · have hsz1 : symSize s = 1 := by
      rw [symSize_eq_children, hnil]
      rfl
    rw [hsz1] at hstep
    have hlen0 : (v.model.get_item i).children.length = 0 := by
      rw [hcc, hnil]
      rfl
    by_cases hn : i + 1 < symSizeList ss
    · have hsib : ((v.model.next_sibling i).orElse (fun _ => v.model.next_uncle i)) =
          some (i + 1) := by
        rw [hv, hstep, if_pos hn]
      simp only [TreeView.move_cursor_down, hf, hlen0, hc, Finset.not_mem_empty, or_false,
        if_pos rfl, hsib, if_pos hn]
      constructor
      · rfl
      · simp
    · have hsib : ((v.model.next_sibling i).orElse (fun _ => v.model.next_uncle i)) =
          none := by
        rw [hv, hstep, if_neg hn]
      simp only [TreeView.move_cursor_down, hf, hlen0, hc, Finset.not_mem_empty, or_false,
        if_pos rfl, hsib, if_neg hn]
      constructor
      · rfl
      · simp [hf]
  · have hlen : (v.model.get_item i).children.length ≠ 0 := by
      rw [hcc, hcons]
      simp [childStarts]
    have hfirst : (v.model.get_item i).children.getD 0 0 = i + 1 := by
      rw [hcc, hcons]
      rfl
    have hn : i + 1 < symSizeList ss := by
      have h1 := symSize_pos c
      have h2 : symSize s = 1 + symSizeList s.children := symSize_eq_children s
      have h3 : symSizeList s.children = symSize c + symSizeList cr := by
        rw [hcons]
        rfl
      omega
    simp only [TreeView.move_cursor_down, hf, hc, Finset.not_mem_empty, or_false,
      hlen, if_neg hlen, hfirst, if_pos hn]
    constructor
    · rfl
    · simp

mutual

theorem flatItems_names : ∀ (s : DocSym) (base : Nat) (parent : Option Nat) (j : Nat),
    (flatItems s base parent j).map Item.name = preNamesSym s
  | .mk nm cs, base, parent, j => by
    simp [flatItems, preNamesSym, flatList_names cs (base + 1) (some base) 0]

theorem flatList_names : ∀ (ss : DocSymList) (base : Nat) (parent : Option Nat) (j : Nat),
    (flatList ss base parent j).map Item.name = preNames ss
  | .nil, _, _, _ => by simp [flatList, preNames]
  | .cons s rest, base, parent, j => by
    simp [flatList, preNames, flatItems_names s base parent j,
      flatList_names rest (base + symSize s) parent (j + 1)]

end

theorem new_names (ss : DocSymList) :
    (LspTreeModel.new ss).lsp_items.map Item.name = preNames ss := by
  rw [new_lsp_items, flatList_names]

theorem downIter_trace (ss : DocSymList) (h0 : 0 < symSizeList ss)
    (v0 : TreeView) (hv : v0.model = LspTreeModel.new ss) (hc : v0.is_collapsed = ∅)
    (hf : v0.focus = some 0) :
    ∀ k, (downIter v0 k).model = LspTreeModel.new ss ∧
      (downIter v0 k).is_collapsed = ∅ ∧
      (downIter v0 k).focus = some (min k (symSizeList ss - 1)) := by
  intro k
  induction k with
  | zero =>
    refine ⟨hv, hc, ?_⟩
    rw [downIter, hf]
    congr 1
    omega
  | succ k ih =>
    obtain ⟨ihm, ihc, ihf⟩ := ih
    have hik : min k (symSizeList ss - 1) < symSizeList ss := by omega
    have hstep := move_down_step ss (min k (symSizeList ss - 1)) hik (downIter v0 k) ihm ihc ihf
    rw [downIter]
    rw [hstep.1]
    by_cases hn : min k (symSizeList ss - 1) + 1 < symSizeList ss
    · rw [if_pos hn]
      refine ⟨ihm, ihc, ?_⟩
      simp only
      congr 1
      omega
    · rw [if_neg hn]
      refine ⟨ihm, ihc, ?_⟩
      rw [ihf]
      congr 1
      omega

theorem range1_append (s m n : Nat) :
    List.range' s m ++ List.range' (s + m) n = List.range' s (m + n) := by
  have h := List.range'_append s m n 1
  rw [Nat.one_mul] at h
  rw [h, Nat.add_comm n m]

theorem optCat_congr {A : Type} {f g : Nat → Option (List A)} : ∀ {l : List Nat},
    (∀ c ∈ l, f c = g c) → optCat f l = optCat g l
  | [], _ => rfl
  | c :: cs, h => by
    simp only [optCat]
    rw [h c (by simp), optCat_congr (fun x hx => h x (by simp [hx]))]

mutual

theorem subt_sym : ∀ (s : DocSym) (m : LspTreeModel) (base : Nat) (parent : Option Nat)
    (j fuel : Nat), symSize s ≤ fuel →
    (∀ k, k < symSize s → m.get_item (base + k) = (flatItems s base parent j).getD k default) →
    subtreeF m fuel base = some (List.range' base (symSize s))
  | .mk nm cs, m, base, parent, j, fuel => by
    intro hfuel H1
    obtain ⟨f, rfl⟩ : ∃ f, fuel = f + 1 :=
      ⟨fuel - 1, by have := symSize_pos (DocSym.mk nm cs); omega⟩
    have hItem : m.get_item base = ⟨nm, childStarts cs (base + 1), base, j, parent⟩ := by
      have h0 := H1 0 (symSize_pos _)
      rw [Nat.add_zero] at h0
      rw [h0, flatItems_getD_zero]
    have H1s : ∀ k, k < symSizeList cs → m.get_item (base + 1 + k) =
        (flatList cs (base + 1) (some base) 0).getD k default := by
      intro k hk
      have he : base + 1 + k = base + (k + 1) := by omega
      have hk1 : k + 1 < symSize (DocSym.mk nm cs) := by
        have : symSize (DocSym.mk nm cs) = 1 + symSizeList cs := rfl
        omega
      rw [he, H1 (k + 1) hk1, flatItems_getD_succ]
    have hszcs : symSizeList cs ≤ f := by
      have : symSize (DocSym.mk nm cs) = 1 + symSizeList cs := rfl
      omega
    have hrec := subt_list cs m (base + 1) (some base) 0 f hszcs H1s
    show (optCat (fun c => subtreeF m f c) (m.get_item base).children).map
      (fun ds => base :: ds) = _
    rw [hItem]
    show (optCat (fun c => subtreeF m f c) (childStarts cs (base + 1))).map
      (fun ds => base :: ds) = _
    rw [hrec]
    show some (base :: List.range' (base + 1) (symSizeList cs)) = _
    have hs1 : symSize (DocSym.mk nm cs) = symSizeList cs + 1 := by
      have : symSize (DocSym.mk nm cs) = 1 + symSizeList cs := rfl
      omega
    rw [hs1, List.range'_succ]

theorem subt_list : ∀ (sub : DocSymList) (m : LspTreeModel) (base : Nat) (parent : Option Nat)
    (j fuel : Nat), symSizeList sub ≤ fuel →
    (∀ k, k < symSizeList sub →
      m.get_item (base + k) = (flatList sub base parent j).getD k default) →
    optCat (fun c => subtreeF m fuel c) (childStarts sub base) =
      some (List.range' base (symSizeList sub))
  | .nil, m, base, parent, j, fuel => by
    intro _ _
    rfl
  | .cons c cr, m, base, parent, j, fuel => by
    intro hfuel H1
    have hszl : symSizeList (DocSymList.cons c cr) = symSize c + symSizeList cr := rfl
    have H1c : ∀ k, k < symSize c →
        m.get_item (base + k) = (flatItems c base parent j).getD k default := by
      intro k hk
      rw [H1 k (by omega), flatList_getD_left c cr base parent j k hk]
    have H1r : ∀ k, k < symSizeList cr → m.get_item (base + symSize c + k) =
        (flatList cr (base + symSize c) parent (j + 1)).getD k default := by
      intro k hk
      have he : base + symSize c + k = base + (symSize c + k) := by omega
      rw [he, H1 (symSize c + k) (by omega),
        flatList_getD_right c cr base parent j (symSize c + k) (by omega)]
      congr 1
      omega
    have hc := subt_sym c m base parent j fuel (by omega) H1c
    have hr := subt_list cr m (base + symSize c) parent (j + 1) fuel (by omega) H1r
    show optCat (fun c' => subtreeF m fuel c') (base :: childStarts cr (base + symSize c)) = _
    simp only [optCat]
    rw [hc, hr]
    show some (List.range' base (symSize c) ++ List.range' (base + symSize c) (symSizeList cr)) = _
    rw [range1_append, hszl]

end

theorem subtree_interval (ss : DocSymList) (i : Nat) (hi : i < symSizeList ss)
    (s : DocSym) (hs : symAt ss i = some s) (fuel : Nat) (hfuel : symSize s ≤ fuel) :
    subtreeF (LspTreeModel.new ss) fuel i = some (List.range' i (symSize s)) := by
  obtain ⟨s', hs', hname, hchild, hix, hframe, hend, hdisj⟩ := placed_all ss i hi
  rw [hs] at hs'
  injection hs' with hseq
  subst hseq
  exact subt_sym s (LspTreeModel.new ss) i ((LspTreeModel.new ss).get_item i).parent
    ((LspTreeModel.new ss).get_item i).child_ix fuel hfuel hframe

theorem count_descendants_new (ss : DocSymList) (i : Nat) (hi : i < symSizeList ss)
    (s : DocSym) (hs : symAt ss i = some s) :
    count_descendants (LspTreeModel.new ss) i = some (symSize s - 1) := by
  obtain ⟨s', hs', hname, hchild, hix, hframe, hend, hdisj⟩ := placed_all ss i hi
  rw [hs] at hs'
  injection hs' with hseq
  subst hseq
  have hsz : (LspTreeModel.new ss).size = symSizeList ss := new_size ss
  have hfuel : symSize s ≤ (LspTreeModel.new ss).size + 1 := by omega
  rw [count_descendants, subtree_interval ss i hi s hs _ hfuel]
  simp [List.length_range']

theorem render_rowsF_succ (m : LspTreeModel) (coll : Finset Nat) (fuel ix level : Nat) :
    render_rowsF m coll (fuel + 1) ix level =
      (if (m.get_item ix).children.length > 0 ∧ ix ∈ coll then
        some [(ix, String.mk (List.replicate level ' ') ++
          (if (m.get_item ix).children.length > 0 then
            (if ix ∈ coll then "⏵ " else "⏷ ") else "") ++ (m.get_item ix).name)]
      else
        (optCat (fun c => render_rowsF m coll fuel c (level + 2))
            (m.get_item ix).children).map
          (fun rest => (ix, String.mk (List.replicate level ' ') ++
            (if (m.get_item ix).children.length > 0 then
              (if ix ∈ coll then "⏵ " else "⏷ ") else "") ++ (m.get_item ix).name) :: rest)) := rfl

mutual

theorem ren_full_sym : ∀ (s : DocSym) (m : LspTreeModel) (base : Nat) (parent : Option Nat)
    (j : Nat) (coll : Finset Nat) (fuel level : Nat), symSize s ≤ fuel →
    (∀ k, k < symSize s → m.get_item (base + k) = (flatItems s base parent j).getD k default) →
    (∀ d, base ≤ d → d < base + symSize s → d ∉ coll) →
    ∃ r, render_rowsF m coll fuel base level = some r ∧ r.length = symSize s
  | .mk nm cs, m, base, parent, j, coll, fuel, level => by
    intro hfuel H1 hnc
    obtain ⟨f, rfl⟩ : ∃ f, fuel = f + 1 :=
      ⟨fuel - 1, by have := symSize_pos (DocSym.mk nm cs); omega⟩
    have hItem : m.get_item base = ⟨nm, childStarts cs (base + 1), base, j, parent⟩ := by
      have h0 := H1 0 (symSize_pos _)
      rw [Nat.add_zero] at h0
      rw [h0, flatItems_getD_zero]
    have hsz : symSize (DocSym.mk nm cs) = 1 + symSizeList cs := rfl
    have H1s : ∀ k, k < symSizeList cs → m.get_item (base + 1 + k) =
        (flatList cs (base + 1) (some base) 0).getD k default := by
      intro k hk
      have he : base + 1 + k = base + (k + 1) := by omega
      rw [he, H1 (k + 1) (by omega), flatItems_getD_succ]
    have hncs : ∀ d, base + 1 ≤ d → d < base + 1 + symSizeList cs → d ∉ coll := by
      intro d h1 h2
      exact hnc d (by omega) (by omega)
    obtain ⟨r, hr, hrl⟩ := ren_full_list cs m (base + 1) (some base) 0 coll f (level + 2)
      (by omega) H1s hncs
    have hb : base ∉ coll := hnc base (by omega) (by have := symSize_pos (DocSym.mk nm cs); omega)
    rw [render_rowsF_succ, hItem]
    simp only [if_neg (by simp [hb] : ¬((Item.mk nm (childStarts cs (base + 1)) base j
      parent).children.length > 0 ∧ base ∈ coll))]
    refine ⟨(base, String.mk (List.replicate level ' ') ++
        (if (childStarts cs (base + 1)).length > 0 then
          (if base ∈ coll then "⏵ " else "⏷ ") else "") ++ nm) :: r, ?_, ?_⟩
    · rw [hr]
      rfl
    · simp only [List.length_cons, hrl, hsz]
      omega

theorem ren_full_list : ∀ (sub : DocSymList) (m : LspTreeModel) (base : Nat)
    (parent : Option Nat) (j : Nat) (coll : Finset Nat) (fuel level : Nat),
    symSizeList sub ≤ fuel →
    (∀ k, k < symSizeList sub →
      m.get_item (base + k) = (flatList sub base parent j).getD k default) →
    (∀ d, base ≤ d → d < base + symSizeList sub → d ∉ coll) →
    ∃ r, optCat (fun c => render_rowsF m coll fuel c level) (childStarts sub base) = some r ∧
      r.length = symSizeList sub
  | .nil, m, base, parent, j, coll, fuel, level => by
    intro _ _ _
    exact ⟨[], rfl, rfl⟩
  | .cons c cr, m, base, parent, j, coll, fuel, level => by
    intro hfuel H1 hnc
    have hszl : symSizeList (DocSymList.cons c cr) = symSize c + symSizeList cr := rfl
    have H1c : ∀ k, k < symSize c →
        m.get_item (base + k) = (flatItems c base parent j).getD k default := by
      intro k hk
      rw [H1 k (by omega), flatList_getD_left c cr base parent j k hk]
    have H1r : ∀ k, k < symSizeList cr → m.get_item (base + symSize c + k) =
        (flatList cr (base + symSize c) parent (j + 1)).getD k default := by
      intro k hk
      have he : base + symSize c + k = base + (symSize c + k) := by omega
      rw [he, H1 (symSize c + k) (by omega),
        flatList_getD_right c cr base parent j (symSize c + k) (by omega)]
      congr 1
      omega
    obtain ⟨rc, hrc, hrcl⟩ := ren_full_sym c m base parent j coll fuel level (by omega) H1c
      (fun d h1 h2 => hnc d h1 (by omega))
    obtain ⟨rr, hrr, hrrl⟩ := ren_full_list cr m (base + symSize c) parent (j + 1) coll fuel
      level (by omega) H1r (fun d h1 h2 => hnc d (by omega) (by omega))
    refine ⟨rc ++ rr, ?_, by simp [hrcl, hrrl, hszl]⟩
    show optCat (fun c' => render_rowsF m coll fuel c' level)
      (base :: childStarts cr (base + symSize c)) = _
    simp only [optCat]
    rw [hrc, hrr]

end

mutual

theorem ren_total_sym : ∀ (s : DocSym) (m : LspTreeModel) (base : Nat) (parent : Option Nat)
    (j : Nat) (coll : Finset Nat) (fuel level : Nat), symSize s ≤ fuel →
    (∀ k, k < symSize s → m.get_item (base + k) = (flatItems s base parent j).getD k default) →
    ∃ r, render_rowsF m coll fuel base level = some r
  | .mk nm cs, m, base, parent, j, coll, fuel, level => by
    intro hfuel H1
    obtain ⟨f, rfl⟩ : ∃ f, fuel = f + 1 :=
      ⟨fuel - 1, by have := symSize_pos (DocSym.mk nm cs); omega⟩
    have hItem : m.get_item base = ⟨nm, childStarts cs (base + 1), base, j, parent⟩ := by
      have h0 := H1 0 (symSize_pos _)
      rw [Nat.add_zero] at h0
      rw [h0, flatItems_getD_zero]
    have H1s : ∀ k, k < symSizeList cs → m.get_item (base + 1 + k) =
        (flatList cs (base + 1) (some base) 0).getD k default := by
      intro k hk
      have he : base + 1 + k = base + (k + 1) := by omega
      have hsz : symSize (DocSym.mk nm cs) = 1 + symSizeList cs := rfl
      rw [he, H1 (k + 1) (by omega), flatItems_getD_succ]
    have hsz : symSize (DocSym.mk nm cs) = 1 + symSizeList cs := rfl
    obtain ⟨r, hr⟩ := ren_total_list cs m (base + 1) (some base) 0 coll f (level + 2)
      (by omega) H1s
    rw [render_rowsF_succ, hItem]
    dsimp only
    split
    · exact ⟨_, rfl⟩
    · rw [hr]
      exact ⟨_, rfl⟩

theorem ren_total_list : ∀ (sub : DocSymList) (m : LspTreeModel) (base : Nat)
    (parent : Option Nat) (j : Nat) (coll : Finset Nat) (fuel level : Nat),
    symSizeList sub ≤ fuel →
    (∀ k, k < symSizeList sub →
      m.get_item (base + k) = (flatList sub base parent j).getD k default) →
    ∃ r, optCat (fun c => render_rowsF m coll fuel c level) (childStarts sub base) = some r
  | .nil, m, base, parent, j, coll, fuel, level => by
    intro _ _
    exact ⟨[], rfl⟩
  | .cons c cr, m, base, parent, j, coll, fuel, level => by
    intro hfuel H1
    have hszl : symSizeList (DocSymList.cons c cr) = symSize c + symSizeList cr := rfl
    have H1c : ∀ k, k < symSize c →
        m.get_item (base + k) = (flatItems c base parent j).getD k default := by
      intro k hk
      rw [H1 k (by omega), flatList_getD_left c cr base parent j k hk]
    have H1r : ∀ k, k < symSizeList cr → m.get_item (base + symSize c + k) =
        (flatList cr (base + symSize c) parent (j + 1)).getD k default := by
      intro k hk
      have he : base + symSize c + k = base + (symSize c + k) := by omega
      rw [he, H1 (symSize c + k) (by omega),
        flatList_getD_right c cr base parent j (symSize c + k) (by omega)]
      congr 1
      omega
    obtain ⟨rc, hrc⟩ := ren_total_sym c m base parent j coll fuel level (by omega) H1c
    obtain ⟨rr, hrr⟩ := ren_total_list cr m (base + symSize c) parent (j + 1) coll fuel level
      (by omega) H1r
    refine ⟨rc ++ rr, ?_⟩
    show optCat (fun c' => render_rowsF m coll fuel c' level)
      (base :: childStarts cr (base + symSize c)) = _
    simp only [optCat]
    rw [hrc, hrr]

end

mutual

theorem ren_irrel_sym : ∀ (s : DocSym) (m : LspTreeModel) (base : Nat) (parent : Option Nat)
    (j : Nat) (coll1 coll2 : Finset Nat) (fuel level : Nat),
    (∀ k, k < symSize s → m.get_item (base + k) = (flatItems s base parent j).getD k default) →
    (∀ d, base ≤ d → d < base + symSize s → (d ∈ coll1 ↔ d ∈ coll2)) →
    render_rowsF m coll1 fuel base level = render_rowsF m coll2 fuel base level
  | .mk nm cs, m, base, parent, j, coll1, coll2, fuel, level => by
    intro H1 hag
    cases fuel with
    | zero => rfl
    | succ f =>
      have hItem : m.get_item base = ⟨nm, childStarts cs (base + 1), base, j, parent⟩ := by
        have h0 := H1 0 (symSize_pos _)
        rw [Nat.add_zero] at h0
        rw [h0, flatItems_getD_zero]
      have hsz : symSize (DocSym.mk nm cs) = 1 + symSizeList cs := rfl
      have H1s : ∀ k, k < symSizeList cs → m.get_item (base + 1 + k) =
          (flatList cs (base + 1) (some base) 0).getD k default := by
        intro k hk
        have he : base + 1 + k = base + (k + 1) := by omega
        rw [he, H1 (k + 1) (by omega), flatItems_getD_succ]
      have hbm : (base ∈ coll1) = (base ∈ coll2) :=
        propext (hag base (by omega) (by have := symSize_pos (DocSym.mk nm cs); omega))
      have hlist := ren_irrel_list cs m (base + 1) (some base) 0 coll1 coll2 f (level + 2)
        H1s (fun d h1 h2 => hag d (by omega) (by omega))
      rw [render_rowsF_succ, render_rowsF_succ, hItem]
      dsimp only
      simp only [hbm, hlist]

theorem ren_irrel_list : ∀ (sub : DocSymList) (m : LspTreeModel) (base : Nat)
    (parent : Option Nat) (j : Nat) (coll1 coll2 : Finset Nat) (fuel level : Nat),
    (∀ k, k < symSizeList sub →
      m.get_item (base + k) = (flatList sub base parent j).getD k default) →
    (∀ d, base ≤ d → d < base + symSizeList sub → (d ∈ coll1 ↔ d ∈ coll2)) →
    optCat (fun c => render_rowsF m coll1 fuel c level) (childStarts sub base) =
      optCat (fun c => render_rowsF m coll2 fuel c level) (childStarts sub base)
  | .nil, m, base, parent, j, coll1, coll2, fuel, level => by
    intro _ _
    rfl
  | .cons c cr, m, base, parent, j, coll1, coll2, fuel, level => by
    intro H1 hag
    have hszl : symSizeList (DocSymList.cons c cr) = symSize c + symSizeList cr := rfl
    have H1c : ∀ k, k < symSize c →
        m.get_item (base + k) = (flatItems c base parent j).getD k default := by
      intro k hk
      rw [H1 k (by omega), flatList_getD_left c cr base parent j k hk]
    have H1r : ∀ k, k < symSizeList cr → m.get_item (base + symSize c + k) =
        (flatList cr (base + symSize c) parent (j + 1)).getD k default := by
      intro k hk
      have he : base + symSize c + k = base + (symSize c + k) := by omega
      rw [he, H1 (symSize c + k) (by omega),
        flatList_getD_right c cr base parent j (symSize c + k) (by omega)]
      congr 1
      omega
    have hc := ren_irrel_sym c m base parent j coll1 coll2 fuel level H1c
      (fun d h1 h2 => hag d h1 (by omega))
    have hr := ren_irrel_list cr m (base + symSize c) parent (j + 1) coll1 coll2 fuel level
      H1r (fun d h1 h2 => hag d (by omega) (by omega))
    show optCat (fun c' => render_rowsF m coll1 fuel c' level)
        (base :: childStarts cr (base + symSize c)) =
      optCat (fun c' => render_rowsF m coll2 fuel c' level)
        (base :: childStarts cr (base + symSize c))
    simp only [optCat]
    rw [hc, hr]

end

mutual

theorem d_sym : ∀ (s : DocSym) (ss : DocSymList) (m : LspTreeModel) (base : Nat)
    (parent : Option Nat) (j : Nat) (coll : Finset Nat) (fuel level ix : Nat) (sx : DocSym),
    symSize s ≤ fuel →
    (∀ k, k < symSize s → m.get_item (base + k) = (flatItems s base parent j).getD k default) →
    (∀ k, k < symSize s → symAt ss (base + k) = symAtSym s k) →
    base ≤ ix → ix < base + symSize s →
    symAtSym s (ix - base) = some sx →
    (∀ a sa, symAt ss a = some sa → a ≤ ix → ix < a + symSize sa → a ∉ coll) →
    (∀ d, ix < d → d < ix + symSize sx → d ∉ coll) →
    ∃ r r', render_rowsF m coll fuel base level = some r ∧
      render_rowsF m (insert ix coll) fuel base level = some r' ∧
      r.length = r'.length + (symSize sx - 1)
  | .mk nm cs, ss, m, base, parent, j, coll, fuel, level, ix, sx => by
    intro hfuel H1 H2 hlo hhi hsx hanc hdesc
    obtain ⟨f, rfl⟩ : ∃ f, fuel = f + 1 :=
      ⟨fuel - 1, by have := symSize_pos (DocSym.mk nm cs); omega⟩
    have hItem : m.get_item base = ⟨nm, childStarts cs (base + 1), base, j, parent⟩ := by
      have h0 := H1 0 (symSize_pos _)
      rw [Nat.add_zero] at h0
      rw [h0, flatItems_getD_zero]
    have hsz : symSize (DocSym.mk nm cs) = 1 + symSizeList cs := rfl
    have H1s : ∀ k, k < symSizeList cs → m.get_item (base + 1 + k) =
        (flatList cs (base + 1) (some base) 0).getD k default := by
      intro k hk
      have he : base + 1 + k = base + (k + 1) := by omega
      rw [he, H1 (k + 1) (by omega), flatItems_getD_succ]
    have H2s : ∀ k, k < symSizeList cs → symAt ss (base + 1 + k) = symAt cs k := by
      intro k hk
      have he : base + 1 + k = base + (k + 1) := by omega
      rw [he, H2 (k + 1) (by omega), symAtSym_succ]
    have hsbase : symAt ss base = some (DocSym.mk nm cs) := by
      have := H2 0 (symSize_pos _)
      rw [Nat.add_zero] at this
      rw [this, symAtSym_zero]
    by_cases hix : ix = base
    · subst hix
      have hsxs : sx = DocSym.mk nm cs := by
        rw [Nat.sub_self] at hsx
        rw [symAtSym_zero] at hsx
        injection hsx with h
        exact h.symm
      subst hsxs
      have hnc : ∀ d, ix ≤ d → d < ix + symSize (DocSym.mk nm cs) → d ∉ coll := by
        intro d h1 h2
        rcases Nat.eq_or_lt_of_le h1 with rfl | hlt
        · exact hanc ix (DocSym.mk nm cs) hsbase (by omega) (by omega)
        · exact hdesc d (by omega) (by omega)
      obtain ⟨r, hr, hrl⟩ := ren_full_sym (DocSym.mk nm cs) m ix parent j coll (f + 1)
        level (by omega) H1 hnc
      have hmem : ix ∈ insert ix coll := Finset.mem_insert_self ix coll
      have hpos := symSize_pos (DocSym.mk nm cs)
      rcases docSymList_cases cs with hnil | ⟨c, cr, hcons⟩
      · refine ⟨r, [(ix, String.mk (List.replicate level ' ') ++ "" ++ nm)], hr, ?_, ?_⟩
        · rw [render_rowsF_succ, hItem, hnil]
          rfl
        · rw [hrl, hsz, hnil]
          rfl
      · refine ⟨r, [(ix, String.mk (List.replicate level ' ') ++ "⏵ " ++ nm)], hr, ?_, ?_⟩
        · rw [render_rowsF_succ, hItem]
          dsimp only
          rw [if_pos ⟨by rw [hcons]; simp [childStarts], hmem⟩,
            if_pos (by rw [hcons]; simp [childStarts] : (childStarts cs (ix + 1)).length > 0),
            if_pos hmem]
        · rw [hrl]
          simp only [List.length_cons, List.length_nil]
          omega
    · have hgt : base < ix := by omega
      have hsx' : symAt cs (ix - (base + 1)) = some sx := by
        have he : ix - base = (ix - (base + 1)) + 1 := by omega
        rw [he, symAtSym_succ] at hsx
        exact hsx
      obtain ⟨r, r', hr, hr', hlen⟩ := d_list cs ss m (base + 1) (some base) 0 coll f
        (level + 2) ix sx (by omega) H1s H2s (by omega) (by omega) hsx' hanc hdesc
      have hbc : base ∉ coll :=
        hanc base (DocSym.mk nm cs) hsbase (by omega) (by omega)
      have hbc' : base ∉ insert ix coll := by
        rw [Finset.mem_insert]
        push_neg
        exact ⟨by omega, hbc⟩
      have e1 : render_rowsF m coll (f + 1) base level = some
          ((base, String.mk (List.replicate level ' ') ++
            (if (childStarts cs (base + 1)).length > 0 then
              (if base ∈ coll then "⏵ " else "⏷ ") else "") ++ nm) :: r) := by
        rw [render_rowsF_succ, hItem]
        dsimp only
        rw [if_neg (by simp [hbc]), hr]
        rfl
      have e2 : render_rowsF m (insert ix coll) (f + 1) base level = some
          ((base, String.mk (List.replicate level ' ') ++
            (if (childStarts cs (base + 1)).length > 0 then
              (if base ∈ insert ix coll then "⏵ " else "⏷ ") else "") ++ nm) :: r') := by
        rw [render_rowsF_succ, hItem]
        dsimp only
        rw [if_neg (by simp [hbc']), hr']
        rfl
      exact ⟨_, _, e1, e2, by simp only [List.length_cons]; omega⟩

theorem d_list : ∀ (sub ss : DocSymList) (m : LspTreeModel) (base : Nat)
    (parent : Option Nat) (j : Nat) (coll : Finset Nat) (fuel level ix : Nat) (sx : DocSym),
    symSizeList sub ≤ fuel →
    (∀ k, k < symSizeList sub →
      m.get_item (base + k) = (flatList sub base parent j).getD k default) →
    (∀ k, k < symSizeList sub → symAt ss (base + k) = symAt sub k) →
    base ≤ ix → ix < base + symSizeList sub →
    symAt sub (ix - base) = some sx →
    (∀ a sa, symAt ss a = some sa → a ≤ ix → ix < a + symSize sa → a ∉ coll) →
    (∀ d, ix < d → d < ix + symSize sx → d ∉ coll) →
    ∃ r r', optCat (fun c => render_rowsF m coll fuel c level) (childStarts sub base) = some r ∧
      optCat (fun c => render_rowsF m (insert ix coll) fuel c level)
        (childStarts sub base) = some r' ∧
      r.length = r'.length + (symSize sx - 1)
  | .nil, ss, m, base, parent, j, coll, fuel, level, ix, sx => by
    intro _ _ _ hlo hhi _ _ _
    simp [symSizeList] at hhi
    omega
  | .cons c cr, ss, m, base, parent, j, coll, fuel, level, ix, sx => by
    intro hfuel H1 H2 hlo hhi hsx hanc hdesc
    have hszl : symSizeList (DocSymList.cons c cr) = symSize c + symSizeList cr := rfl
    have H1c : ∀ k, k < symSize c →
        m.get_item (base + k) = (flatItems c base parent j).getD k default := by
      intro k hk
      rw [H1 k (by omega), flatList_getD_left c cr base parent j k hk]
    have H1r : ∀ k, k < symSizeList cr → m.get_item (base + symSize c + k) =
        (flatList cr (base + symSize c) parent (j + 1)).getD k default := by
      intro k hk
      have he : base + symSize c + k = base + (symSize c + k) := by omega
      rw [he, H1 (symSize c + k) (by omega),
        flatList_getD_right c cr base parent j (symSize c + k) (by omega)]
      congr 1
      omega
    have H2c : ∀ k, k < symSize c → symAt ss (base + k) = symAtSym c k := by
      intro k hk
      rw [H2 k (by omega), symAt_cons_lt c cr k hk]
    have H2r : ∀ k, k < symSizeList cr → symAt ss (base + symSize c + k) = symAt cr k := by
      intro k hk
      have he : base + symSize c + k = base + (symSize c + k) := by omega
      rw [he, H2 (symSize c + k) (by omega), symAt_cons_ge c cr (symSize c + k) (by omega)]
      congr 1
      omega
    by_cases hin : ix < base + symSize c
    · have hsxc : symAtSym c (ix - base) = some sx := by
        have := symAt_cons_lt c cr (ix - base) (by omega)
        rw [← this]
        exact hsx
      obtain ⟨rc, rc', hrc, hrc', hclen⟩ := d_sym c ss m base parent j coll fuel level ix sx
        (by omega) H1c H2c hlo hin hsxc hanc hdesc
      obtain ⟨rr, hrr⟩ := ren_total_list cr m (base + symSize c) parent (j + 1) coll fuel
        level (by omega) H1r
      have hrr' : optCat (fun c' => render_rowsF m (insert ix coll) fuel c' level)
          (childStarts cr (base + symSize c)) = some rr := by
        rw [ren_irrel_list cr m (base + symSize c) parent (j + 1) (insert ix coll) coll fuel
          level H1r (fun d h1 h2 => by
            rw [Finset.mem_insert]
            constructor
            · rintro (rfl | h)
              · omega
              · exact h
            · intro h
              exact Or.inr h)]
        exact hrr
      refine ⟨rc ++ rr, rc' ++ rr, ?_, ?_, ?_⟩
      · show optCat (fun c' => render_rowsF m coll fuel c' level)
          (base :: childStarts cr (base + symSize c)) = _
        simp only [optCat]
        rw [hrc, hrr]
      · show optCat (fun c' => render_rowsF m (insert ix coll) fuel c' level)
          (base :: childStarts cr (base + symSize c)) = _
        simp only [optCat]
        rw [hrc', hrr']
      · simp only [List.length_append]
        omega
    · have hsxr : symAt cr (ix - (base + symSize c)) = some sx := by
        have h1 := symAt_cons_ge c cr (ix - base) (by omega)
        rw [← hsx, h1]
        congr 1
        omega
      obtain ⟨rr, rr', hrr, hrr', hrlen⟩ := d_list cr ss m (base + symSize c) parent (j + 1)
        coll fuel level ix sx (by omega) H1r H2r (by omega) (by omega) hsxr hanc hdesc
      obtain ⟨rc, hrc⟩ := ren_total_sym c m base parent j coll fuel level (by omega) H1c
      have hrc' : render_rowsF m (insert ix coll) fuel base level = some rc := by
        rw [ren_irrel_sym c m base parent j (insert ix coll) coll fuel level H1c
          (fun d h1 h2 => by
            rw [Finset.mem_insert]
            constructor
            · rintro (rfl | h)
              · omega
              · exact h
            · intro h
              exact Or.inr h)]
        exact hrc
      refine ⟨rc ++ rr, rc ++ rr', ?_, ?_, ?_⟩
      · show optCat (fun c' => render_rowsF m coll fuel c' level)
          (base :: childStarts cr (base + symSize c)) = _
        simp only [optCat]
        rw [hrc, hrr]
      · show optCat (fun c' => render_rowsF m (insert ix coll) fuel c' level)
          (base :: childStarts cr (base + symSize c)) = _
        simp only [optCat]
        rw [hrc', hrr']
      · simp only [List.length_append]
        omega

end

theorem render_all_collapse_diff (ss : DocSymList) (ix : Nat)
    (hix : ix < symSizeList ss) (sx : DocSym) (hsx : symAt ss ix = some sx)
    (coll : Finset Nat)
    (hanc : ∀ a sa, symAt ss a = some sa → a ≤ ix → ix < a + symSize sa → a ∉ coll)
    (hdesc : ∀ d, ix < d → d < ix + symSize sx → d ∉ coll) :
    ∃ r r', render_all (LspTreeModel.new ss) coll = some r ∧
      render_all (LspTreeModel.new ss) (insert ix coll) = some r' ∧
      r.length = r'.length + (symSize sx - 1) := by
  have hn := new_size ss
  have H1 : ∀ k, k < symSizeList ss → (LspTreeModel.new ss).get_item (0 + k) =
      (flatList ss 0 none 0).getD k default := by
    intro k _
    rw [Nat.zero_add]
    simp only [LspTreeModel.get_item, new_lsp_items]
  have H2 : ∀ k, k < symSizeList ss → symAt ss (0 + k) = symAt ss k := by
    intro k _
    rw [Nat.zero_add]
  have hsx0 : symAt ss (ix - 0) = some sx := by
    rw [Nat.sub_zero]
    exact hsx
  obtain ⟨r, r', hr, hr', hlen⟩ := d_list ss ss (LspTreeModel.new ss) 0 none 0 coll
    ((LspTreeModel.new ss).size + 1) 0 ix sx (by omega) H1 H2 (by omega) (by omega)
    hsx0 hanc hdesc
  refine ⟨r, r', ?_, ?_, hlen⟩
  · simp only [render_all, new_roots]
    exact hr
  · simp only [render_all, new_roots]
    exact hr'

theorem render_leaf_toggle_sym (m : LspTreeModel) (ix : Nat)
    (hleaf : (m.get_item ix).children = []) (S S' : Finset Nat)
    (hag : ∀ j, j ≠ ix → (j ∈ S' ↔ j ∈ S)) :
    ∀ fuel j level, render_rowsF m S' fuel j level = render_rowsF m S fuel j level := by
  intro fuel
  induction fuel with
  | zero =>
    intro j level
    rfl
  | succ f ih =>
    intro j level
    by_cases hj : j = ix
    · subst hj
      rw [render_rowsF_succ, render_rowsF_succ, hleaf]
      rfl
    · have hm : (j ∈ S') = (j ∈ S) := propext (hag j hj)
      have hoc := @optCat_congr (Nat × String) (fun c => render_rowsF m S' f c (level + 2))
        (fun c => render_rowsF m S f c (level + 2)) ((m.get_item j).children)
        (fun c _ => ih c (level + 2))
      rw [render_rowsF_succ, render_rowsF_succ]
      simp only [hm, hoc]

theorem render_all_leaf_toggle (m : LspTreeModel) (ix : Nat)
    (hleaf : (m.get_item ix).children = []) (S S' : Finset Nat)
    (hag : ∀ j, j ≠ ix → (j ∈ S' ↔ j ∈ S)) :
    render_all m S' = render_all m S := by
  simp only [render_all]
  exact optCat_congr (fun r _ => render_leaf_toggle_sym m ix hleaf S S' hag (m.size + 1) r 0)

theorem toggle_agree (v : TreeView) (ix : Nat) :
    ∀ j, j ≠ ix → (j ∈ (v.toggle_collapse ix).is_collapsed ↔ j ∈ v.is_collapsed) := by
  intro j hj
  simp only [TreeView.toggle_collapse]
  split
  · simp [Finset.mem_erase, hj]
  · simp [Finset.mem_insert, hj]

theorem toggle_model (v : TreeView) (ix : Nat) : (v.toggle_collapse ix).model = v.model := by
  simp only [TreeView.toggle_collapse]
  split <;> rfl

theorem toggle_focus (v : TreeView) (ix : Nat) : (v.toggle_collapse ix).focus = v.focus := by
  simp only [TreeView.toggle_collapse]
  split <;> rfl

theorem toggle_toggle (v : TreeView) (ix : Nat) :
    ((v.toggle_collapse ix).toggle_collapse ix).is_collapsed = v.is_collapsed := by
  simp only [TreeView.toggle_collapse]
  by_cases h : ix ∈ v.is_collapsed
  · rw [if_pos h]
    simp only
    rw [if_neg (by simp), Finset.insert_erase h]
  · rw [if_neg h]
    simp only
    rw [if_pos (Finset.mem_insert_self ix _), Finset.erase_insert h]

theorem move_down_toggle_leaf (v : TreeView) (ix : Nat)
    (hleaf : (v.model.get_item ix).children = []) :
    ((v.toggle_collapse ix).move_cursor_down).1.focus = (v.move_cursor_down).1.focus ∧
      ((v.toggle_collapse ix).move_cursor_down).2 = (v.move_cursor_down).2 := by
  have hmodel := toggle_model v ix
  have hfocus := toggle_focus v ix
  cases hf : v.focus with
  | none =>
    constructor
    · simp only [TreeView.move_cursor_down, hfocus, hf, hmodel, TreeView.focus_first]
    · simp only [TreeView.move_cursor_down, hfocus, hf]
  | some i =>
    simp only [TreeView.move_cursor_down, hfocus, hf, hmodel]
    by_cases hix : i = ix
    · subst hix
      rw [if_pos (Or.inl (by simp [hleaf])), if_pos (Or.inl (by simp [hleaf]))]
      cases (v.model.next_sibling i).orElse (fun _ => v.model.next_uncle i) with
      | none => simp [hfocus, hf]
      | some j => simp
    · have hmem : (i ∈ (v.toggle_collapse ix).is_collapsed) = (i ∈ v.is_collapsed) :=
        propext (toggle_agree v ix i hix)
      simp only [hmem]
      split
      · cases (v.model.next_sibling i).orElse (fun _ => v.model.next_uncle i) with
        | none => simp [hfocus, hf]
        | some j => simp
      · simp [hfocus, hf]

theorem move_up_toggle (v : TreeView) (ix : Nat) :
    ((v.toggle_collapse ix).move_cursor_up).1.focus = (v.move_cursor_up).1.focus ∧
      ((v.toggle_collapse ix).move_cursor_up).2 = (v.move_cursor_up).2 := by
  have hmodel := toggle_model v ix
  have hfocus := toggle_focus v ix
  cases hf : v.focus with
  | none =>
    constructor
    · simp only [TreeView.move_cursor_up, hfocus, hf, hmodel, TreeView.focus_first]
    · simp only [TreeView.move_cursor_up, hfocus, hf]
  | some i =>
    simp only [TreeView.move_cursor_up, hfocus, hf, hmodel]
    cases (v.model.prev_sibling i).orElse (fun _ => (v.model.get_item i).parent) with
    | none => simp [hfocus, hf]
    | some j => simp

theorem prev_sibling_eq (m : LspTreeModel) (ix : Nat) :
    m.prev_sibling ix =
      match (m.get_item ix).parent with
      | some parent =>
        if (m.get_item ix).child_ix > 0 then
          some ((m.get_item parent).children.getD ((m.get_item ix).child_ix - 1) 0)
        else none
      | none =>
        if (m.get_item ix).child_ix > 0 then
          some (m.roots.getD ((m.get_item ix).child_ix - 1) 0)
        else none := rfl

theorem prev_sibling_or_parent_ne (ss : DocSymList) (i : Nat) (hi : i < symSizeList ss)
    (j : Nat)
    (hj : ((LspTreeModel.new ss).prev_sibling i).orElse
      (fun _ => ((LspTreeModel.new ss).get_item i).parent) = some j) : j ≠ i := by
  obtain ⟨s, hs, hname, hchild, hix, hframe, hend, hdisj⟩ := placed_all ss i hi
  rw [prev_sibling_eq] at hj
  rcases hdisj with ⟨b, hpar, hbix, hSR⟩ | ⟨p, sp, b, hpar, hpi, hpn, hsp, hbix, hSR⟩
  · obtain ⟨hblen, hbval, _, _⟩ := hSR
    simp only [hpar, hbix] at hj
    by_cases hb : b > 0
    · rw [if_pos hb] at hj
      have hrl : (LspTreeModel.new ss).roots.length = symLen ss := by
        rw [new_roots, childStarts_length]
      have hmono : (LspTreeModel.new ss).roots.getD (b - 1) 0 <
          (LspTreeModel.new ss).roots.getD b 0 := by
        rw [new_roots]
        rw [new_roots] at hbval
        exact childStarts_getD_mono ss 0 (b - 1) b (by omega) (by omega)
      rw [hbval] at hmono
      have : j = (LspTreeModel.new ss).roots.getD (b - 1) 0 := by
        simp only [Option.orElse] at hj
        injection hj with h
        exact h.symm
      omega
    · rw [if_neg hb] at hj
      simp only [Option.orElse, hpar] at hj
      cases hj
  · obtain ⟨hblen, hbval, _, _⟩ := hSR
    obtain ⟨sp', hsp2, hnamep, hchildp, hixp, hframep, hendp, _⟩ := placed_all ss p hpn
    rw [hsp] at hsp2
    injection hsp2 with hspeq
    subst hspeq
    simp only [hpar, hbix] at hj
    by_cases hb : b > 0
    · rw [if_pos hb] at hj
      have hcl : ((LspTreeModel.new ss).get_item p).children.length = symLen sp.children := by
        rw [hchildp, childStarts_length]
      have hmono : ((LspTreeModel.new ss).get_item p).children.getD (b - 1) 0 <
          ((LspTreeModel.new ss).get_item p).children.getD b 0 := by
        rw [hchildp]
        rw [hchildp] at hbval
        exact childStarts_getD_mono sp.children (p + 1) (b - 1) b (by omega) (by omega)
      rw [hbval] at hmono
      have : j = ((LspTreeModel.new ss).get_item p).children.getD (b - 1) 0 := by
        simp only [Option.orElse] at hj
        injection hj with h
        exact h.symm
      omega
    · rw [if_neg hb] at hj
      simp only [Option.orElse, hpar] at hj
      injection hj with h
      omega

theorem move_up_step (ss : DocSymList) (i : Nat) (hi : i < symSizeList ss)
    (v : TreeView) (hv : v.model = LspTreeModel.new ss) (hf : v.focus = some i) :
    ((v.move_cursor_up).1.focus = v.focus ∧ (v.move_cursor_up).2 = none) ∨
      ((v.move_cursor_up).1.focus ≠ v.focus ∧
        (v.move_cursor_up).2 = (v.move_cursor_up).1.focus) := by
  simp only [TreeView.move_cursor_up, hf]
  cases horelse : (v.model.prev_sibling i).orElse
      (fun _ => (v.model.get_item i).parent) with
  | none =>
    left
    exact ⟨hf, rfl⟩
  | some j =>
    right
    have hne : j ≠ i := prev_sibling_or_parent_ne ss i hi j (by rw [← hv]; exact horelse)
    refine ⟨?_, rfl⟩
    simp [hne]

theorem move_down_fired (v : TreeView) (i : Nat) (hf : v.focus = some i) :
    (v.move_cursor_down).2 =
      if (v.move_cursor_down).1.focus ≠ some i then some i else none := by
  simp only [TreeView.move_cursor_down, hf]

theorem move_down_unfocused (v : TreeView) (hf : v.focus = none) :
    (v.move_cursor_down).1 = v.focus_first ∧ (v.move_cursor_down).2 = none := by
  simp only [TreeView.move_cursor_down, hf]
  constructor <;> trivial

theorem getD_map_eq {α β : Type} (f : α → β) : ∀ (l : List α) (n : Nat) (d : α),
    (l.map f).getD n (f d) = f (l.getD n d)
  | [], n, d => by simp
  | x :: xs, 0, d => by simp
  | x :: xs, n + 1, d => by
    simp only [List.map_cons, List.getD_cons_succ]
    exact getD_map_eq f xs n d

theorem toW_parent (m : LspTreeModel) (ix : Nat) :
    (m.toW).parent.getD ix none = (m.get_item ix).parent := by
  show (m.lsp_items.map (fun i => i.parent)).getD ix none =
    (m.lsp_items.getD ix default).parent
  exact getD_map_eq (fun i : Item => i.parent) m.lsp_items ix default

theorem toW_child_ref (m : LspTreeModel) (ix : Nat) :
    (m.toW).child_ref.getD ix 0 = (m.get_item ix).child_ix := by
  show (m.lsp_items.map (fun i => i.child_ix)).getD ix 0 =
    (m.lsp_items.getD ix default).child_ix
  exact getD_map_eq (fun i : Item => i.child_ix) m.lsp_items ix default

theorem toW_children (m : LspTreeModel) (ix : Nat) :
    (m.toW).children.getD ix [] = (m.get_item ix).children := by
  show (m.lsp_items.map (fun i => i.children)).getD ix [] =
    (m.lsp_items.getD ix default).children
  exact getD_map_eq (fun i : Item => i.children) m.lsp_items ix default

theorem toW_roots (m : LspTreeModel) : (m.toW).roots = m.roots := rfl

theorem w_next_sibling_agree (m : LspTreeModel) (ix : Nat) :
    (m.toW).w_next_sibling ix = m.next_sibling ix := by
  rw [next_sibling_eq]
  simp only [WTreeModel.w_next_sibling, toW_parent, toW_child_ref, toW_children, toW_roots]

theorem w_prev_sibling_agree (m : LspTreeModel) (ix : Nat)
    (h : (m.get_item ix).parent ≠ none ∨ (m.get_item ix).child_ix = 0) :
    (m.toW).w_prev_sibling ix = m.prev_sibling ix := by
  rw [prev_sibling_eq]
  simp only [WTreeModel.w_prev_sibling, toW_parent, toW_child_ref, toW_children, toW_roots]
  cases hpar : (m.get_item ix).parent with
  | some p => rfl
  | none =>
    rcases h with h | h
    · exact absurd hpar h
    · simp [h]

theorem w_next_uncleF_succ_eq (w : WTreeModel) (fuel ix : Nat) :
    w.w_next_uncleF (fuel + 1) ix =
      match w.parent.getD ix none with
      | some parent_ix =>
        match w.parent.getD parent_ix none with
        | some grandparent_ix =>
          if (w.children.getD grandparent_ix []).length > w.child_ref.getD parent_ix 0 + 1 then
            some ((w.children.getD grandparent_ix []).getD (w.child_ref.getD parent_ix 0 + 1) 0)
          else w.w_next_uncleF fuel parent_ix
        | none =>
          if w.roots.length > w.child_ref.getD parent_ix 0 + 1 then
            some (w.roots.getD (w.child_ref.getD parent_ix 0 + 1) 0)
          else none
      | none => none := rfl

theorem w_prev_uncleF_succ_eq (w : WTreeModel) (fuel ix : Nat) :
    w.w_prev_uncleF (fuel + 1) ix =
      match w.parent.getD ix none with
      | some parent_ix =>
        match w.parent.getD parent_ix none with
        | some grandparent_ix =>
          if w.child_ref.getD parent_ix 0 > 0 then
            some ((w.children.getD grandparent_ix []).getD (w.child_ref.getD parent_ix 0 - 1) 0)
          else w.w_prev_uncleF fuel parent_ix
        | none =>
          if w.child_ref.getD parent_ix 0 > 0 then
            some (w.roots.getD (w.child_ref.getD parent_ix 0 - 1) 0)
          else none
      | none => none := rfl

theorem prev_uncleF_succ_eq (m : LspTreeModel) (fuel ix : Nat) :
    m.prev_uncleF (fuel + 1) ix =
      match (m.get_item ix).parent with
      | some parent =>
        match (m.get_item parent).parent with
        | some grandparent =>
          if (m.get_item parent).child_ix > 0 then
            some ((m.get_item grandparent).children.getD ((m.get_item parent).child_ix - 1) 0)
          else m.prev_uncleF fuel (m.get_item parent).ix
        | none =>
          if (m.get_item parent).child_ix > 0 then
            some (m.roots.getD ((m.get_item parent).child_ix - 1) 0)
          else none
      | none => none := rfl

theorem w_next_uncleF_agree (m : LspTreeModel) (hwf : WFm m) :
    ∀ fuel ix, ix < m.size → (m.toW).w_next_uncleF fuel ix = m.next_uncleF fuel ix := by
  intro fuel
  induction fuel with
  | zero =>
    intro ix _
    rfl
  | succ f ih =>
    intro ix hix
    obtain ⟨hixq, hpf, hrc, hcb, hrb, hcp, hrp⟩ := hwf
    rw [w_next_uncleF_succ_eq, next_uncleF_succ_eq, toW_parent]
    cases hpar : (m.get_item ix).parent with
    | none => rfl
    | some p =>
      have hp : p < m.size := by
        have := hpf ix hix p hpar
        omega
      dsimp only
      rw [toW_parent, toW_child_ref]
      cases hgp : (m.get_item p).parent with
      | none =>
        dsimp only
        rw [toW_roots]
      | some gp =>
        dsimp only
        rw [toW_children]
        split
        · rfl
        · rw [hixq p hp]
          exact ih p hp

theorem w_prev_uncleF_agree (m : LspTreeModel) (hwf : WFm m) :
    ∀ fuel ix, ix < m.size → (m.toW).w_prev_uncleF fuel ix = m.prev_uncleF fuel ix := by
  intro fuel
  induction fuel with
  | zero =>
    intro ix _
    rfl
  | succ f ih =>
    intro ix hix
    obtain ⟨hixq, hpf, hrc, hcb, hrb, hcp, hrp⟩ := hwf
    rw [w_prev_uncleF_succ_eq, prev_uncleF_succ_eq, toW_parent]
    cases hpar : (m.get_item ix).parent with
    | none => rfl
    | some p =>
      have hp : p < m.size := by
        have := hpf ix hix p hpar
        omega
      dsimp only
      rw [toW_parent, toW_child_ref]
      cases hgp : (m.get_item p).parent with
      | none =>
        dsimp only
        rw [toW_roots]
      | some gp =>
        dsimp only
        rw [toW_children]
        split
        · rfl
        · rw [hixq p hp]
          exact ih p hp

/-- C1: the no-panic claim fails on the code.  Pressing Down or Up with a
zero-root arena panics: the `handle_event` logging block runs
`self.focus.unwrap()` after the move, and `focus_first` left the focus `None`
(modelled as `handle_event` returning `none`).  The column-generic
`Widget::render` indexes the root list out of bounds for any column count of
at least two and at least one root, because `index` is initialised once before
the column loop and never reset (the scan of a 2-column, 1-root model aborts,
while a single column stays in bounds). -/
theorem c1_no_panic_fails :
    (TreeView.new (LspTreeModel.new exEmpty)).handle_event TreeKey.down = none ∧
      (TreeView.new (LspTreeModel.new exEmpty)).handle_event TreeKey.up = none ∧
      widget_render_scan 2 [0] = none ∧
      widget_render_scan 1 [0] = some 1 := by decide

/-- C2: `depth` is not a total function.  On the arena built from `A → [B]`,
the loop guard re-reads `self.parent(&ix)` — constant across iterations —
instead of the loop variable `iter`, so for the child node (index 1) the loop
never exits no matter how many iterations are allowed, while a root node
still returns depth 0 immediately. -/
theorem c2_depth_diverges :
    (∀ fuel d iter, (LspTreeModel.new exAB).depthF 1 fuel d iter = none) ∧
      (LspTreeModel.new exAB).depthF 0 1 0 0 = some 0 := by
  refine ⟨?_, by decide⟩
  intro fuel
  induction fuel with
  | zero =>
    intro d iter
    rfl
  | succ f ih =>
    intro d iter
    show (LspTreeModel.new exAB).depthF 1 f (d + 1) 0 = none
    exact ih (d + 1) 0

/-- C3: sibling symmetry fails in the column-generic engine.  On a well-formed
two-leaf-root forest the root branch of its `prev_sibling` returns
`roots[child_index]` — the node itself — instead of `roots[child_index - 1]`,
so `next_sibling(prev_sibling(N))` is `none ≠ Some(N)` for the second root,
although `prev_sibling(N)` is defined.  The trait-based engine returns the
correct previous root on the same forest. -/
theorem c3_sibling_symmetry_fails :
    (wTwoRoots.w_prev_sibling 1).isSome ∧
      wTwoRoots.w_prev_sibling 1 = some 1 ∧
      (wTwoRoots.w_prev_sibling 1).bind wTwoRoots.w_next_sibling ≠ some 1 ∧
      (LspTreeModel.new exTwoRoots).prev_sibling 1 = some 0 ∧
      ((LspTreeModel.new exTwoRoots).prev_sibling 1).bind
        (LspTreeModel.new exTwoRoots).next_sibling = some 1 := by decide

/-- C6: on the tree `A → [B, C]`, `B → [D]` with nothing collapsed, successive
move-downs from `A` (index 0) visit `B` (1), `D` (2), `C` (3), invoking the
focus callback with the previous focus 0, 1, 2 respectively, and a fourth
move-down leaves the focus unchanged at `C` and fires no callback — in the
trait-based view and likewise in the column-generic engine on the same
forest. -/
theorem c6_move_down_trace :
    (downIter vABDC 1).focus = some 1 ∧ (vABDC.move_cursor_down).2 = some 0 ∧
      (downIter vABDC 2).focus = some 2 ∧
      ((downIter vABDC 1).move_cursor_down).2 = some 1 ∧
      (downIter vABDC 3).focus = some 3 ∧
      ((downIter vABDC 2).move_cursor_down).2 = some 2 ∧
      (downIter vABDC 4).focus = some 3 ∧
      ((downIter vABDC 3).move_cursor_down).2 = none ∧
      (wABDC.w_move_cursor_down).2 = some 0 ∧
      (wABDC.w_move_cursor_down).1.focus_row = some 1 ∧
      ((wABDC.w_move_cursor_down).1.w_move_cursor_down).2 = some 1 ∧
      ((wABDC.w_move_cursor_down).1.w_move_cursor_down).1.focus_row = some 2 ∧
      (((wABDC.w_move_cursor_down).1.w_move_cursor_down).1.w_move_cursor_down).2 = some 2 ∧
      (((wABDC.w_move_cursor_down).1.w_move_cursor_down).1.w_move_cursor_down).1.focus_row =
        some 3 ∧
      ((((wABDC.w_move_cursor_down).1.w_move_cursor_down).1.w_move_cursor_down).1.w_move_cursor_down).2 =
        none ∧
      ((((wABDC.w_move_cursor_down).1.w_move_cursor_down).1.w_move_cursor_down).1.w_move_cursor_down).1.focus_row =
        some 3 := by decide

/-- C4 counterexample: on the same well-formed two-root forest data the two
engine variants disagree on `prev_sibling` of the second root: the trait-based
engine returns the first root, the column-generic engine returns the node
itself. -/
theorem c4_counterexample :
    ((LspTreeModel.new exTwoRoots).toW).w_prev_sibling 1 = some 1 ∧
      (LspTreeModel.new exTwoRoots).prev_sibling 1 = some 0 ∧
      ((LspTreeModel.new exTwoRoots).toW).w_prev_sibling 1 ≠
        (LspTreeModel.new exTwoRoots).prev_sibling 1 := by decide

/-- C4 (amended): on the same well-formed forest data the two variants'
`next_sibling`, `next_uncle` and `prev_uncle` agree on every node, and
`prev_sibling` agrees on every node except a root at position greater than 0
(where the column-generic variant drops the `- 1`). -/
theorem c4_variants_agree_except_root_prev (m : LspTreeModel) (hwf : WFm m) (ix : Nat)
    (hix : ix < m.size) :
    (m.toW).w_next_sibling ix = m.next_sibling ix ∧
      (m.toW).w_next_uncle ix = m.next_uncle ix ∧
      (m.toW).w_prev_uncle ix = m.prev_uncle ix ∧
      ((m.get_item ix).parent ≠ none ∨ (m.get_item ix).child_ix = 0 →
        (m.toW).w_prev_sibling ix = m.prev_sibling ix) :=
  ⟨w_next_sibling_agree m ix, w_next_uncleF_agree m hwf (ix + 1) ix hix,
    w_prev_uncleF_agree m hwf (ix + 1) ix hix, fun h => w_prev_sibling_agree m ix h⟩

theorem c4_agree_witness :
    WFm (LspTreeModel.new exAB) ∧ 1 < (LspTreeModel.new exAB).size ∧
      (((LspTreeModel.new exAB).toW).w_next_sibling 1 =
          (LspTreeModel.new exAB).next_sibling 1 ∧
        ((LspTreeModel.new exAB).toW).w_next_uncle 1 =
          (LspTreeModel.new exAB).next_uncle 1 ∧
        ((LspTreeModel.new exAB).toW).w_prev_uncle 1 =
          (LspTreeModel.new exAB).prev_uncle 1 ∧
        (((LspTreeModel.new exAB).get_item 1).parent ≠ none ∨
            ((LspTreeModel.new exAB).get_item 1).child_ix = 0 →
          ((LspTreeModel.new exAB).toW).w_prev_sibling 1 =
            (LspTreeModel.new exAB).prev_sibling 1)) :=
  ⟨by decide, by decide,
    c4_variants_agree_except_root_prev (LspTreeModel.new exAB) (by decide) 1 (by decide)⟩

/-- C5: the forest invariant holds in every arena the adapter builds: a node
with a parent appears in the parent's child list exactly at its recorded
sibling position, and a root node's recorded position indexes it in the root
list. -/
theorem c5_forest_invariant (ss : DocSymList) (i : Nat)
    (hi : i < (LspTreeModel.new ss).size) :
    (∀ p ∈ ((LspTreeModel.new ss).get_item i).parent,
      ((LspTreeModel.new ss).get_item i).child_ix <
          ((LspTreeModel.new ss).get_item p).children.length ∧
        ((LspTreeModel.new ss).get_item p).children.getD
          ((LspTreeModel.new ss).get_item i).child_ix 0 = i) ∧
      (((LspTreeModel.new ss).get_item i).parent = none →
        ((LspTreeModel.new ss).get_item i).child_ix < (LspTreeModel.new ss).roots.length ∧
          (LspTreeModel.new ss).roots.getD
            ((LspTreeModel.new ss).get_item i).child_ix 0 = i) := by
  rw [new_size] at hi
  obtain ⟨s, hs, hname, hchild, hix, hframe, hend, hdisj⟩ := placed_all ss i hi
  constructor
  · intro p hp
    rcases hdisj with ⟨b, hpar, hbix, hSR⟩ | ⟨q, sq, b, hpar, hqi, hqn, hsq, hbix, hSR⟩
    · rw [Option.mem_def, hpar] at hp
      cases hp
    · rw [Option.mem_def, hpar] at hp
      injection hp with hpq
      subst hpq
      obtain ⟨hblen, hbval, _, _⟩ := hSR
      rw [hbix]
      exact ⟨hblen, hbval⟩
  · intro hnone
    rcases hdisj with ⟨b, hpar, hbix, hSR⟩ | ⟨q, sq, b, hpar, hqi, hqn, hsq, hbix, hSR⟩
    · obtain ⟨hblen, hbval, _, _⟩ := hSR
      rw [hbix]
      exact ⟨hblen, hbval⟩
    · rw [hnone] at hpar
      cases hpar

theorem c5_forest_invariant_witness :
    1 < (LspTreeModel.new exAB).size ∧
      ((∀ p ∈ ((LspTreeModel.new exAB).get_item 1).parent,
        ((LspTreeModel.new exAB).get_item 1).child_ix <
            ((LspTreeModel.new exAB).get_item p).children.length ∧
          ((LspTreeModel.new exAB).get_item p).children.getD
            ((LspTreeModel.new exAB).get_item 1).child_ix 0 = 1) ∧
        (((LspTreeModel.new exAB).get_item 1).parent = none →
          ((LspTreeModel.new exAB).get_item 1).child_ix <
              (LspTreeModel.new exAB).roots.length ∧
            (LspTreeModel.new exAB).roots.getD
              ((LspTreeModel.new exAB).get_item 1).child_ix 0 = 1)) :=
  ⟨by decide, c5_forest_invariant exAB 1 (by decide)⟩

/-- C7 counterexample: two behaviours contradict the claim.  The initial move
that focuses the first root from the unfocused state transitions the focus
(from `none` to the first root) but invokes no callback; and a down-move that
does fire passes the previous focus index, not the new one. -/
theorem c7_counterexample :
    (TreeView.new (LspTreeModel.new exAB)).focus = none ∧
      ((TreeView.new (LspTreeModel.new exAB)).move_cursor_down).1.focus = some 0 ∧
      ((TreeView.new (LspTreeModel.new exAB)).move_cursor_down).2 = none ∧
      (vABDC.move_cursor_down).1.focus = some 1 ∧
      (vABDC.move_cursor_down).2 = some 0 ∧
      (vABDC.move_cursor_down).2 ≠ (vABDC.move_cursor_down).1.focus := by decide

/-- C7 (amended): when "move up" changes the focus the callback is invoked
with the new focus index, and it fires exactly when the focus changes;
"move down" from a focused node fires with the previous index exactly when the
destination differs from the source; the initial move that focuses the first
root from the unfocused state fires no callback. -/
theorem c7_callback_rules (ss : DocSymList) (i : Nat) (hi : i < symSizeList ss)
    (v : TreeView) (hv : v.model = LspTreeModel.new ss) (hf : v.focus = some i)
    (u : TreeView) (hu : u.focus = none) :
    (((v.move_cursor_up).1.focus = v.focus ∧ (v.move_cursor_up).2 = none) ∨
        ((v.move_cursor_up).1.focus ≠ v.focus ∧
          (v.move_cursor_up).2 = (v.move_cursor_up).1.focus)) ∧
      ((v.move_cursor_down).2 =
        if (v.move_cursor_down).1.focus ≠ some i then some i else none) ∧
      ((u.move_cursor_down).1 = u.focus_first ∧ (u.move_cursor_down).2 = none) :=
  ⟨move_up_step ss i hi v hv hf, move_down_fired v i hf, move_down_unfocused u hu⟩

theorem c7_callback_rules_witness :
    1 < symSizeList exAB ∧ vAB1.model = LspTreeModel.new exAB ∧ vAB1.focus = some 1 ∧
      (((vAB1.move_cursor_up).1.focus = vAB1.focus ∧ (vAB1.move_cursor_up).2 = none) ∨
          ((vAB1.move_cursor_up).1.focus ≠ vAB1.focus ∧
            (vAB1.move_cursor_up).2 = (vAB1.move_cursor_up).1.focus)) ∧
        ((vAB1.move_cursor_down).2 =
          if (vAB1.move_cursor_down).1.focus ≠ some 1 then some 1 else none) ∧
        (((TreeView.new (LspTreeModel.new exAB)).move_cursor_down).1 =
            (TreeView.new (LspTreeModel.new exAB)).focus_first ∧
          ((TreeView.new (LspTreeModel.new exAB)).move_cursor_down).2 = none) :=
  ⟨by decide, rfl, rfl,
    c7_callback_rules exAB 1 (by decide) vAB1 rfl rfl
      (TreeView.new (LspTreeModel.new exAB)) rfl⟩

/-- C8 counterexample: on the tree `A → [B]` (node `A` has exactly one
descendant) the expanded render has 2 rows and the collapsed render has 1 row
— the collapsed node keeps its own row — so the difference is
`count_descendants(A) = 1` and not `1 + count_descendants(A) = 2` as the claim
states. -/
theorem c8_counterexample :
    (render_all (LspTreeModel.new exAB) ∅).map List.length = some 2 ∧
      (render_all (LspTreeModel.new exAB) (insert 0 ∅)).map List.length = some 1 ∧
      count_descendants (LspTreeModel.new exAB) 0 = some 1 ∧
      ¬(2 = 1 + (1 + 1)) := by decide

/-- C8 (amended): for any tree and any node with at least one descendant, if
no ancestor of the node is collapsed and no descendant of it is collapsed (all
other collapse states equal and arbitrary), the rendered output with the node
collapsed contains exactly `count_descendants(node)` fewer rows than with it
expanded.  Ancestors are phrased through the pre-order layout: `a` is an
ancestor of `ix` exactly when `ix` falls in `a`'s subtree interval. -/
theorem c8_collapse_removes_descendant_rows (ss : DocSymList) (ix : Nat)
    (hix : ix < symSizeList ss) (sx : DocSym) (hsx : symAt ss ix = some sx)
    (_hchild : sx.children ≠ DocSymList.nil) (coll : Finset Nat)
    (hanc : ∀ a sa, symAt ss a = some sa → a ≤ ix → ix < a + symSize sa → a ∉ coll)
    (hdesc : ∀ d, ix < d → d < ix + symSize sx → d ∉ coll) :
    ∃ r r' d, render_all (LspTreeModel.new ss) coll = some r ∧
      render_all (LspTreeModel.new ss) (insert ix coll) = some r' ∧
      count_descendants (LspTreeModel.new ss) ix = some d ∧
      r.length = r'.length + d := by
  obtain ⟨r, r', hr, hr', hlen⟩ := render_all_collapse_diff ss ix hix sx hsx coll hanc hdesc
  exact ⟨r, r', symSize sx - 1, hr, hr', count_descendants_new ss ix hix sx hsx, hlen⟩

theorem c8_collapse_witness :
    1 < symSizeList exABDC ∧
      symAt exABDC 1 =
        some (DocSym.mk "B" (DocSymList.cons (DocSym.mk "D" DocSymList.nil) DocSymList.nil)) ∧
      (∃ r r' d, render_all (LspTreeModel.new exABDC) ∅ = some r ∧
        render_all (LspTreeModel.new exABDC) (insert 1 ∅) = some r' ∧
        count_descendants (LspTreeModel.new exABDC) 1 = some d ∧
        r.length = r'.length + d) :=
  ⟨by decide, rfl,
    c8_collapse_removes_descendant_rows exABDC 1 (by decide)
      (DocSym.mk "B" (DocSymList.cons (DocSym.mk "D" DocSymList.nil) DocSymList.nil))
      rfl (fun h => DocSymList.noConfusion h) ∅
      (fun a sa _ _ _ => Finset.not_mem_empty a)
      (fun d _ _ => Finset.not_mem_empty d)⟩

/-- C9 counterexample: toggling collapse on a focused leaf is not a no-op on
the view state: the leaf is inserted into the collapse set. -/
theorem c9_counterexample :
    (vLeaf.toggle_collapse 0).is_collapsed ≠ vLeaf.is_collapsed ∧
      ((vLeaf.model.get_item 0).children.length = 0) ∧ vLeaf.focus = some 0 := by decide

/-- C9 (amended): toggling collapse on a leaf node does change the collapse
set (it inserts, and a second toggle removes, the leaf), but it is
observationally a no-op and no error: focus, model, both cursor moves'
results and callback firings, and the full rendered output are unchanged. -/
theorem c9_leaf_toggle_observational_noop (v : TreeView) (ix : Nat)
    (hleaf : (v.model.get_item ix).children = []) :
    (v.toggle_collapse ix).focus = v.focus ∧
      (v.toggle_collapse ix).model = v.model ∧
      ((v.toggle_collapse ix).move_cursor_down).1.focus = (v.move_cursor_down).1.focus ∧
      ((v.toggle_collapse ix).move_cursor_down).2 = (v.move_cursor_down).2 ∧
      ((v.toggle_collapse ix).move_cursor_up).1.focus = (v.move_cursor_up).1.focus ∧
      ((v.toggle_collapse ix).move_cursor_up).2 = (v.move_cursor_up).2 ∧
      render_all (v.toggle_collapse ix).model (v.toggle_collapse ix).is_collapsed =
        render_all v.model v.is_collapsed ∧
      ((v.toggle_collapse ix).toggle_collapse ix).is_collapsed = v.is_collapsed := by
  refine ⟨toggle_focus v ix, toggle_model v ix, (move_down_toggle_leaf v ix hleaf).1,
    (move_down_toggle_leaf v ix hleaf).2, (move_up_toggle v ix).1, (move_up_toggle v ix).2,
    ?_, toggle_toggle v ix⟩
  rw [toggle_model]
  exact render_all_leaf_toggle v.model ix hleaf v.is_collapsed _ (toggle_agree v ix)

theorem c9_leaf_toggle_witness :
    (vLeaf.model.get_item 0).children = [] ∧
      ((vLeaf.toggle_collapse 0).focus = vLeaf.focus ∧
        (vLeaf.toggle_collapse 0).model = vLeaf.model ∧
        ((vLeaf.toggle_collapse 0).move_cursor_down).1.focus =
          (vLeaf.move_cursor_down).1.focus ∧
        ((vLeaf.toggle_collapse 0).move_cursor_down).2 = (vLeaf.move_cursor_down).2 ∧
        ((vLeaf.toggle_collapse 0).move_cursor_up).1.focus =
          (vLeaf.move_cursor_up).1.focus ∧
        ((vLeaf.toggle_collapse 0).move_cursor_up).2 = (vLeaf.move_cursor_up).2 ∧
        render_all (vLeaf.toggle_collapse 0).model (vLeaf.toggle_collapse 0).is_collapsed =
          render_all vLeaf.model vLeaf.is_collapsed ∧
        ((vLeaf.toggle_collapse 0).toggle_collapse 0).is_collapsed = vLeaf.is_collapsed) :=
  ⟨by decide, c9_leaf_toggle_observational_noop vLeaf 0 (by decide)⟩

/-- C10: with nothing collapsed, starting focused on the first root, repeated
"move down" walks the arena indices 0, 1, 2, … in order, pinning at the last
index once reached (so each node is visited exactly once before the focus
stops changing), and the arena's index order is exactly the pre-order walk of
the source nested payload (node `k`'s stored name is the `k`-th name of the
recursive pre-order listing). -/
theorem c10_preorder_roundtrip (ss : DocSymList) (h0 : 0 < symSizeList ss)
    (v0 : TreeView) (hv : v0.model = LspTreeModel.new ss) (hc : v0.is_collapsed = ∅)
    (hf : v0.focus = (LspTreeModel.new ss).get_first) :
    (∀ k, (downIter v0 k).focus = some (min k (symSizeList ss - 1))) ∧
      (LspTreeModel.new ss).lsp_items.map Item.name = preNames ss := by
  have hfirst : (LspTreeModel.new ss).get_first = some 0 := by
    rcases docSymList_cases ss with rfl | ⟨s, rest, hss⟩
    · simp [symSizeList] at h0
    · subst hss
      have hroots : (LspTreeModel.new (DocSymList.cons s rest)).roots =
          0 :: childStarts rest (0 + symSize s) := by
        rw [new_roots]
        rfl
      simp [LspTreeModel.get_first, hroots]
  exact ⟨fun k => (downIter_trace ss h0 v0 hv hc (by rw [hf, hfirst]) k).2.2, new_names ss⟩

theorem c10_preorder_witness :
    0 < symSizeList exABDC ∧ vABDC.is_collapsed = ∅ ∧
      vABDC.focus = (LspTreeModel.new exABDC).get_first ∧
      ((∀ k, (downIter vABDC k).focus = some (min k (symSizeList exABDC - 1))) ∧
        (LspTreeModel.new exABDC).lsp_items.map Item.name = preNames exABDC) :=
  ⟨by decide, rfl, by decide,
    c10_preorder_roundtrip exABDC (by decide) vABDC rfl rfl (by decide)⟩
